import Mathlib

/-!
# Verification of the beattracker provenance engine

Shallow embedding of the repository's core: the noise filters
(`utils/filters.py`), timestamp parsing and the event index
(`tracker/backtracker.py`), the backward tracer (`Backtracker.backtrack`),
the forward tracer (`tracker/forward_tracker.py`), the tag matcher
(`main.py` / `utils/tag_pool.py`), followed by theorems about the claims.

Modelling conventions:
* Python `datetime` instants are modelled as `Int` (a linear order of
  instants); `datetime.fromisoformat` is an arbitrary parameter
  `fi : String → Option Int` (`none` models a raised parse error, which the
  source catches).  The sentinels `datetime.max` / `datetime.min` used by the
  sort keys are modelled as `⊤ : WithTop Int` / `⊥ : WithBot Int`.
* Python dicts keyed by node keys are insertion-ordered association lists
  (`alistGet` / `alistSet`), matching dict iteration order.
* Python sets are lists with membership-guarded insertion (only membership
  and insertion are used by the source).
* Python truthiness for optional strings / ints is made explicit
  (`truthyS`, `truthyI`): `None`, `""` and `0` are falsy.
* The raw inode value is modelled already stringified (the constructor
  applies `str(...)` to it; only its string form is ever read).
-/

namespace BeatTracker

/-- Python truthiness of an optional string: `None` and `""` are falsy. -/
def truthyS : Option String → Bool
  | none => false
  | some s => s != ""

/-- Python truthiness of an optional int: `None` and `0` are falsy. -/
def truthyI : Option Int → Bool
  | none => false
  | some n => n != 0

/-- Python `a or b` over optional strings (first truthy operand). -/
def pyOrS (a b : Option String) : Option String :=
  if truthyS a then a else b

/-- Python `s.strip()`: drop leading and trailing whitespace. -/
def pyStrip (s : String) : String :=
  ⟨((s.data.dropWhile Char.isWhitespace).reverse.dropWhile Char.isWhitespace).reverse⟩

/-! ## utils/filters.py -/

/-- `IGNORED_PREFIXES` from `utils/filters.py`. -/
def IGNORED_PREFIXES : List String :=
  ["/lib/", "/usr/lib/", "/usr/share/", "/proc/", "/sys/", "/dev/",
   "/etc/ld.so.cache", "/etc/localtime", "/run/", "/var/lib/", "/snap/",
   "/tmp/go-build"]

/-- `IGNORED_BINARIES` from `utils/filters.py`. -/
def IGNORED_BINARIES : List String :=
  ["/usr/bin/sudo", "/bin/sudo", "/usr/bin/bash", "/bin/bash",
   "/usr/bin/curl", "/usr/bin/chmod", "/usr/bin/touch", "/usr/bin/rm"]

/-- `IGNORED_PORTS` from `utils/filters.py`. -/
def IGNORED_PORTS : List Nat := [0, 53, 5353]

/-- `IGNORED_EXACT_PATHS` from `utils/filters.py`. -/
def IGNORED_EXACT_PATHS : List String :=
  ["/home/attacker", "/home/attacker/", "/home/student/proj_tools",
   "/home/student/Downloads", "/home/student/Downloads/"]

/-- Python `path.rstrip("/")`. -/
def rstripSlash (s : String) : String :=
  ⟨(s.data.reverse.dropWhile (fun c => c == '/')).reverse⟩

/-- Python `str.isdigit`: non-empty and all digit characters. -/
def isDigitStr (s : String) : Bool :=
  s != "" && s.data.all Char.isDigit

/-- Whether `pat` occurs at the head of the list. -/
def startsWithChars : List Char → List Char → Bool
  | [], _ => true
  | _ :: _, [] => false
  | p :: ps, x :: xs => p == x && startsWithChars ps xs

/-- Python `s.startswith(p)` (character-level). -/
def pyStartsWith (s p : String) : Bool :=
  startsWithChars p.data s.data

/-- `is_noise_file` from `utils/filters.py`. -/
def is_noise_file (path : String) : Bool :=
  if path == "" then true
  else if IGNORED_EXACT_PATHS.contains (rstripSlash path) then true
  else if IGNORED_BINARIES.contains path then true
  else IGNORED_PREFIXES.any (fun p => pyStartsWith path p)

/-- Split a character list at a separator character (auxiliary for the
`addr_str.split(":")` in `is_noise_socket`). -/
def splitCharAux (c : Char) : List Char → List Char → List (List Char)
  | [], acc => [acc.reverse]
  | x :: xs, acc =>
      if x == c then acc.reverse :: splitCharAux c xs []
      else splitCharAux c xs (x :: acc)

/-- Python `s.split(c)[-1]`. -/
def lastSplitPart (c : Char) (s : String) : String :=
  match (splitCharAux c s.data []).getLast? with
  | some l => ⟨l⟩
  | none => ""

/-- Whether `pat` occurs anywhere in the list (Python `pat in s`). -/
def containsChars (pat : List Char) : List Char → Bool
  | [] => startsWithChars pat []
  | x :: xs => startsWithChars pat (x :: xs) || containsChars pat xs

/-- Python substring containment `pat in s`. -/
def containsSub (s pat : String) : Bool :=
  containsChars pat.data s.data

/-- Decimal value of a digit string (`int()` on an `isdigit` string). -/
def digitsToNat : List Char → Nat → Nat
  | [], acc => acc
  | c :: cs, acc => digitsToNat cs (acc * 10 + (c.toNat - '0'.toNat))

/-- `is_noise_socket` from `utils/filters.py`. -/
def is_noise_socket (addr : String) : Bool :=
  if addr == "" then false
  else
    let portHit :=
      if addr.data.contains ':' then
        let portStr := lastSplitPart ':' addr
        if isDigitStr portStr then IGNORED_PORTS.contains (digitsToNat portStr.data 0)
        else false
      else false
    if portHit then true else containsSub addr "127.0.0.53"

/-! ## Normalized events and the event index -/

/-- The `socket` sub-record of a normalized event. -/
structure Socket where
  src_ip : Option String := none
  src_port : Option Int := none
  dst_ip : Option String := none
  dst_port : Option Int := none
deriving DecidableEq, Repr

/-- A normalized event dict as consumed by the tracers (§3 of the data
model); `inode` is modelled already stringified. -/
structure RawEvent where
  timestamp : Option String := none
  action : Option String := none
  pid : Option Int := none
  ppid : Option Int := none
  exe : Option String := none
  file_path : Option String := none
  inode : Option String := none
  socket : Option Socket := none
  edge_dir : Option String := none
  tags : List String := []
deriving DecidableEq, Repr

/-- Python `ts.endswith("Z")`: the last character is `Z`. -/
def pyEndsWithZ (s : String) : Bool :=
  match s.data.getLast? with
  | some c => c == 'Z'
  | none => false

/-- `parse_iso` from `tracker/backtracker.py`: rewrite a trailing `Z` to
`+00:00` and delegate to the (fallible) ISO parser `fi`; `None` in, `None`
out.  Totality (the claim's "never raises") is by construction: the `except`
clause of the source is the `none` result of `fi`. -/
def parse_iso (fi : String → Option Int) : Option String → Option Int
  | none => none
  | some s => fi (if pyEndsWithZ s then s.dropRight 1 ++ "+00:00" else s)

/-- The `EventIdx` namedtuple: a normalized event together with its input
position `eid`, parsed timestamp `ts` and the raw timestamp string
(the only field of `raw` the tracers read back). -/
structure EventIdx where
  eid : Nat
  ts : Option Int
  action : Option String
  pid : Option Int
  ppid : Option Int
  exe : Option String
  file_path : Option String
  inode : Option String
  socket : Option Socket
  edge_dir : Option String
  rawTs : Option String
deriving DecidableEq, Repr

/-- Build one `EventIdx` from a raw event (both tracker constructors). -/
def mkEventIdx (fi : String → Option Int) (eid : Nat) (ev : RawEvent) : EventIdx :=
  { eid := eid
    ts := parse_iso fi ev.timestamp
    action := ev.action
    pid := ev.pid
    ppid := ev.ppid
    exe := ev.exe
    file_path := ev.file_path
    inode := ev.inode
    socket := ev.socket
    edge_dir := ev.edge_dir
    rawTs := ev.timestamp }

/-- Enumerate the input stream into indexed events (constructor loops). -/
def indexEvents (fi : String → Option Int) (events : List RawEvent) : List EventIdx :=
  events.enum.map (fun p => mkEventIdx fi p.1 p.2)

/-- Stable insertion: `x` goes after every element strictly below it,
before the first element not strictly below it (ties keep input order). -/
def insertStable {α : Type} (lt : α → α → Bool) (x : α) : List α → List α
  | [] => [x]
  | y :: ys => if lt y x then y :: insertStable lt x ys else x :: y :: ys

/-- Stable sort by a strict comparator.  A stable sort is extensionally
determined by the comparator, so this insertion sort is the same function
as Python's stable `list.sort`. -/
def stableSort {α : Type} (lt : α → α → Bool) : List α → List α
  | [] => []
  | x :: xs => insertStable lt x (stableSort lt xs)

/-- Sort key of `Backtracker.__init__`: missing timestamps become the
`datetime.max` sentinel (`⊤`). -/
def sortKeyB (e : EventIdx) : WithTop Int :=
  match e.ts with
  | none => ⊤
  | some t => (t : WithTop Int)

/-- Sort key of `ForwardTracker.__init__`: missing timestamps become the
`datetime.min` sentinel (`⊥`). -/
def sortKeyF (e : EventIdx) : WithBot Int :=
  match e.ts with
  | none => ⊥
  | some t => (t : WithBot Int)

/-- `Backtracker.__init__`'s event view: stable sort, timestamp descending
(`sort(key=..., reverse=True)`). -/
def backwardView (fi : String → Option Int) (events : List RawEvent) : List EventIdx :=
  stableSort (fun a b => decide (sortKeyB b < sortKeyB a)) (indexEvents fi events)

/-- `ForwardTracker.__init__`'s event view: stable sort, timestamp
ascending. -/
def forwardView (fi : String → Option Int) (events : List RawEvent) : List EventIdx :=
  stableSort (fun a b => decide (sortKeyF a < sortKeyF b)) (indexEvents fi events)

/-! ## Node model -/

/-- A node identity `(kind, primary-id)`: the source builds exactly file
keys (string id), proc keys (int pid) and sock keys (address string). -/
inductive NodeKey
  | file (id : String)
  | proc (pid : Int)
  | sock (addr : String)
deriving DecidableEq, Repr

/-- The open attribute bag a `nodes_meta` entry accumulates. -/
structure NodeAttrs where
  type : String
  pid : Option Int := none
  exe : Option String := none
  inode : Option String := none
  path : Option String := none
  addr : Option String := none
  src_ip : Option String := none
  src_port : Option Int := none
  dst_ip : Option String := none
  dst_port : Option Int := none
deriving DecidableEq, Repr

/-- Insertion-ordered association-list lookup (dict read). -/
def alistGet {κ ν : Type} [DecidableEq κ] (m : List (κ × ν)) (k : κ) : Option ν :=
  (m.find? (fun p => p.1 = k)).map (fun p => p.2)

/-- Insertion-ordered association-list write: replace the first binding of
`k` in place, else append (dict write preserving iteration order). -/
def alistSet {κ ν : Type} [DecidableEq κ] (m : List (κ × ν)) (k : κ) (v : ν) :
    List (κ × ν) :=
  match m with
  | [] => [(k, v)]
  | (k0, v0) :: rest =>
      if k0 = k then (k, v) :: rest else (k0, v0) :: alistSet rest k v

/-- The type string stored on a fresh node (`{"type": ntype}`). -/
def nodeTypeOf : NodeKey → String
  | .file _ => "file"
  | .proc _ => "proc"
  | .sock _ => "sock"

/-- A `nodes_meta` store. -/
abbrev NodeStore := List (NodeKey × NodeAttrs)

/-- Shared file-key helper (`_file_key` in both tracers): prefer the inode,
else the path, else no key; empty strings are falsy. -/
def fileKey (ev : EventIdx) : Option NodeKey :=
  if truthyS ev.inode then some (.file (ev.inode.getD ""))
  else if truthyS ev.file_path then some (.file (ev.file_path.getD ""))
  else none

/-- Shared socket-key helper (`_socket_key` in both tracers): prefer the
dst endpoint, else the src endpoint; empty ips and zero ports are falsy. -/
def socketKey (ev : EventIdx) : Option NodeKey :=
  let sock := ev.socket.getD {}
  if truthyS sock.dst_ip && truthyI sock.dst_port then
    some (.sock ((sock.dst_ip.getD "") ++ ":" ++ toString (sock.dst_port.getD 0)))
  else if truthyS sock.src_ip && truthyI sock.src_port then
    some (.sock ((sock.src_ip.getD "") ++ ":" ++ toString (sock.src_port.getD 0)))
  else none

/-- The socket-field block of `_record_node_attrs` (both tracers):
`setdefault` each endpoint field that `is not None` on the event. -/
def recordSockFields (node : NodeAttrs) (sock : Option Socket) : NodeAttrs :=
  match sock with
  | none => node
  | some s =>
      let node := match s.src_ip with
        | some v => { node with src_ip := node.src_ip.orElse (fun _ => some v) }
        | none => node
      let node := match s.src_port with
        | some v => { node with src_port := node.src_port.orElse (fun _ => some v) }
        | none => node
      let node := match s.dst_ip with
        | some v => { node with dst_ip := node.dst_ip.orElse (fun _ => some v) }
        | none => node
      match s.dst_port with
        | some v => { node with dst_port := node.dst_port.orElse (fun _ => some v) }
        | none => node

/-- The file branch of `_record_node_attrs` (identical in both tracers):
seed `inode`/`path` from the key, then let the event overwrite `inode` and
`setdefault` `path`. -/
def recordFileAttrs (node : NodeAttrs) (nid : String) (ev : Option EventIdx) :
    NodeAttrs :=
  let node :=
    if isDigitStr nid then { node with inode := node.inode.orElse (fun _ => some nid) }
    else { node with path := node.path.orElse (fun _ => some nid) }
  match ev with
  | none => node
  | some e =>
      let node := if truthyS e.inode then { node with inode := e.inode } else node
      if truthyS e.file_path then
        { node with path := node.path.orElse (fun _ => e.file_path) }
      else node

/-- `Backtracker._record_node_attrs`. -/
def recordNodeAttrsB (store : NodeStore) (key : NodeKey) (ev : Option EventIdx) :
    NodeStore :=
  let node := (alistGet store key).getD { type := nodeTypeOf key }
  let node :=
    match key with
    | .proc pid =>
        let node := { node with pid := node.pid.orElse (fun _ => some pid) }
        match ev with
        | some e =>
            if truthyS e.exe then { node with exe := node.exe.orElse (fun _ => e.exe) }
            else node
        | none => node
    | .file nid => recordFileAttrs node nid ev
    | .sock addr =>
        let node := { node with addr := node.addr.orElse (fun _ => some addr) }
        recordSockFields node (ev.bind (fun e => e.socket))
  alistSet store key node

/-- `Backtracker._edges_from_event`: the flow edge selected by `edge_dir`,
then the `fork` ancestry edge when `ppid` is present and differs. -/
def edgesFromEventB (ev : EventIdx) : List (NodeKey × NodeKey × String) :=
  let label := (pyOrS (pyOrS ev.action ev.edge_dir) (some "event")).getD "event"
  let fk := fileKey ev
  let pk : Option NodeKey := match ev.pid with
    | some p => some (.proc p)
    | none => none
  let sk := socketKey ev
  let flow : List (NodeKey × NodeKey × String) :=
    match ev.edge_dir, pk, fk, sk with
    | some "process->file", some p, some f, _ => [(p, f, label)]
    | some "file->process", some p, some f, _ => [(f, p, label)]
    | some "process->socket", some p, _, some s => [(p, s, label)]
    | some "socket->process", some p, _, some s => [(s, p, label)]
    | _, _, _, _ => []
  let forkE : List (NodeKey × NodeKey × String) :=
    match ev.ppid, pk with
    | some pp, some p =>
        if NodeKey.proc pp = p then [] else [(NodeKey.proc pp, p, "fork")]
    | _, _ => []
  flow ++ forkE

/-! ## Backward tracer (`Backtracker.backtrack`) -/

/-- Edge aggregation key `(src, dst, label)`. -/
abbrev EdgeKey := NodeKey × NodeKey × String

/-- An `edge_map` entry (`info` dict). -/
structure EdgeInfo where
  src : NodeKey
  dst : NodeKey
  action : String
  timestamp : Option String
  count : Nat
deriving DecidableEq, Repr

abbrev EdgeMap := List (EdgeKey × EdgeInfo)

/-- Record/merge an edge occurrence into `edge_map`: create the entry with
count 0 if missing, then increment its count (so a fresh entry has
count 1); the timestamp is captured at creation only. -/
def bumpEdge (em : EdgeMap) (k : EdgeKey) (ts : Option String) : EdgeMap :=
  match alistGet em k with
  | some info => alistSet em k { info with count := info.count + 1 }
  | none =>
      alistSet em k
        { src := k.1, dst := k.2.1, action := k.2.2, timestamp := ts, count := 1 }

/-- Traversal state of `Backtracker.backtrack`. -/
structure BTState where
  interesting : List NodeKey
  depths : List (NodeKey × Nat)
  nodesMeta : NodeStore
  edgeMap : EdgeMap
deriving Repr

/-- `src[0] == "file" and is_noise_file(str(src[1]))`. -/
def noiseFileKey : NodeKey → Bool
  | .file s => is_noise_file s
  | _ => false

/-- `src[0] == "sock" and is_noise_socket(str(src[1]))`. -/
def noiseSockKey : NodeKey → Bool
  | .sock a => is_noise_socket a
  | _ => false

/-- The guard chain of the reverse-traversal body: `dst` is interesting,
neither endpoint is a noise file/socket, and `dst`'s depth is below the hop
bound (each failed guard is a `continue` in the source). -/
def btGuard1 (maxHops : Nat) (st : BTState) (t : NodeKey × NodeKey × String) : Bool :=
  let (src, dst, _) := t
  decide (dst ∈ st.interesting) &&
    !noiseFileKey src && !noiseSockKey src &&
    !noiseFileKey dst && !noiseSockKey dst &&
    decide ((alistGet st.depths dst).getD 0 < maxHops)

/-- The proceed branch of the reverse-traversal body: record both endpoint
attributes (dst first), merge the edge, and adopt `src` as interesting at
depth `depth[dst] + 1` when new.  (`node_depths[dst]` is total here: every
interesting node has a recorded depth.) -/
def btApply1 (ev : EventIdx) (st : BTState) (t : NodeKey × NodeKey × String) : BTState :=
  let (src, dst, label) := t
  let currentDepth := (alistGet st.depths dst).getD 0
  let nm := recordNodeAttrsB (recordNodeAttrsB st.nodesMeta dst (some ev)) src (some ev)
  let em := bumpEdge st.edgeMap (src, dst, label) ev.rawTs
  if src ∈ st.interesting then
    { st with nodesMeta := nm, edgeMap := em }
  else
    { interesting := st.interesting ++ [src]
      depths := alistSet st.depths src (currentDepth + 1)
      nodesMeta := nm
      edgeMap := em }

/-- One `(src, dst, label)` iteration of the reverse-traversal loop. -/
def btStep1 (maxHops : Nat) (ev : EventIdx) (st : BTState)
    (t : NodeKey × NodeKey × String) : BTState :=
  if btGuard1 maxHops st t then btApply1 ev st t else st

/-- Process one event of the reverse-time view. -/
def btEventStep1 (maxHops : Nat) (st : BTState) (ev : EventIdx) : BTState :=
  (edgesFromEventB ev).foldl (btStep1 maxHops ev) st

/-- The full reverse-traversal pass. -/
def btPhase1 (maxHops : Nat) (view : List EventIdx) (st0 : BTState) : BTState :=
  view.foldl (btEventStep1 maxHops) st0

/-- `ignore_egress_exes`, the pass-through-shell denylist. -/
def ignore_egress_exes : List String :=
  ["/usr/bin/sudo", "/bin/sudo", "/usr/bin/bash", "/bin/bash"]

/-- The first `suspicious_pids` construction (shell exes filtered out).
The source immediately overwrites it with the unfiltered set below, so it
is dead code kept for reference. -/
def suspiciousPidsFiltered (nm : NodeStore) : List Int :=
  nm.filterMap (fun p =>
    match p.1 with
    | .proc _ =>
        match p.2.pid with
        | some pid =>
            if (match p.2.exe with
                | some e => ignore_egress_exes.contains e
                | none => false) then none
            else some pid
        | none => none
    | _ => none)

/-- The second `suspicious_pids` construction — the one the egress pass
actually uses: every proc node's pid, with no exe filtering. -/
def suspiciousPids (nm : NodeStore) : List Int :=
  nm.filterMap (fun p =>
    match p.1 with
    | .proc _ => p.2.pid
    | _ => none)

/-- What the egress-enrichment pass does with one event: `none` (skip), or
`some (recordTarget, edgeKey)` — record that node from the event and merge
the edge keyed `edgeKey` (Case A: network connection; Case B: file write).
The decision depends only on the pid set and the event. -/
def btEmit2 (susp : List Int) (ev : EventIdx) : Option (NodeKey × EdgeKey) :=
  let pidIn := match ev.pid with
    | some p => susp.contains p
    | none => false
  if pidIn then
    let procKey := NodeKey.proc (ev.pid.getD 0)
    if ev.edge_dir = some "process->socket" ∨ ev.action = some "connect" then
      match socketKey ev with
      | none => none
      | some sk =>
          let addr := match sk with | .sock a => a | _ => ""
          if is_noise_socket addr then none
          else
            let label := (pyOrS ev.action (some "connect")).getD "connect"
            some (sk, (procKey, sk, label))
    else if ev.edge_dir = some "process->file" then
      match fileKey ev with
      | none => none
      | some fk =>
          if truthyS ev.file_path && is_noise_file (ev.file_path.getD "") then none
          else
            let label := (pyOrS ev.action (some "write")).getD "write"
            some (fk, (procKey, fk, label))
    else none
  else none

/-- One event of the egress-enrichment pass. -/
def btStep2 (susp : List Int) (st : BTState) (ev : EventIdx) : BTState :=
  match btEmit2 susp ev with
  | none => st
  | some (target, k) =>
      { st with
        nodesMeta := recordNodeAttrsB st.nodesMeta target (some ev)
        edgeMap := bumpEdge st.edgeMap k ev.rawTs }

/-- The egress-enrichment pass: sweep the view once more for the pid set
computed from the phase-1 node store. -/
def btPhase2 (view : List EventIdx) (st : BTState) : BTState :=
  let susp := suspiciousPids st.nodesMeta
  view.foldl (btStep2 susp) st

/-- Initial traversal state: the start node is interesting at depth 0 and
its attributes are recorded without an event. -/
def initBTState (startKey : NodeKey) : BTState :=
  { interesting := [startKey]
    depths := [(startKey, 0)]
    nodesMeta := recordNodeAttrsB [] startKey none
    edgeMap := [] }

/-- The traversal state after both passes. -/
def backtrackState (view : List EventIdx) (startKey : NodeKey) (maxHops : Nat) :
    BTState :=
  btPhase2 view (btPhase1 maxHops view (initBTState startKey))

/-- An output edge; backward edges carry no `order` key (`none`). -/
structure EdgeOut where
  src : NodeKey
  dst : NodeKey
  action : String
  timestamp : Option String
  order : Option Nat := none
deriving DecidableEq, Repr

/-- An output node; the attribute bag flattened, plus the defaulted `id`. -/
structure NodeOut where
  type : String
  pid : Option Int := none
  exe : Option String := none
  inode : Option String := none
  path : Option String := none
  addr : Option String := none
  src_ip : Option String := none
  src_port : Option Int := none
  dst_ip : Option String := none
  dst_port : Option Int := none
  activity_label : Option String := none
  id : String ⊕ Int
deriving DecidableEq, Repr

/-- A trace graph. -/
structure Graph where
  nodes : List NodeOut
  edges : List EdgeOut
deriving DecidableEq, Repr

/-- The `(xN)` decoration of a merged edge. -/
def decorateEdge (info : EdgeInfo) : EdgeOut :=
  let actionLabel :=
    if 1 < info.count then info.action ++ " (x" ++ toString info.count ++ ")"
    else info.action
  { src := info.src, dst := info.dst, action := actionLabel,
    timestamp := info.timestamp, order := none }

/-- The `id` default chain of the output assembly:
`inode or path or addr or pid or str(node_key[1])` (truthiness chain). -/
def defaultNodeId (key : NodeKey) (a : NodeAttrs) : String ⊕ Int :=
  if truthyS a.inode then Sum.inl (a.inode.getD "")
  else if truthyS a.path then Sum.inl (a.path.getD "")
  else if truthyS a.addr then Sum.inl (a.addr.getD "")
  else if truthyI a.pid then Sum.inr (a.pid.getD 0)
  else
    Sum.inl (match key with
      | .file s => s
      | .proc p => toString p
      | .sock s => s)

/-- `Backtracker._format_output` on one node: copy every attribute and
default the `id`. -/
def formatNodeB (p : NodeKey × NodeAttrs) : NodeOut :=
  let a := p.2
  { type := a.type, pid := a.pid, exe := a.exe, inode := a.inode, path := a.path,
    addr := a.addr, src_ip := a.src_ip, src_port := a.src_port,
    dst_ip := a.dst_ip, dst_port := a.dst_port, activity_label := none,
    id := defaultNodeId p.1 a }

/-- Assemble the backward output graph from the final traversal state. -/
def formatOutputB (st : BTState) : Graph :=
  { nodes := st.nodesMeta.map formatNodeB
    edges := st.edgeMap.map (fun p => decorateEdge p.2) }

/-- A `backtrack` run from an already-coerced start key. -/
def backtrackFrom (view : List EventIdx) (startKey : NodeKey) (maxHops : Nat) :
    Graph :=
  formatOutputB (backtrackState view startKey maxHops)

/-- A caller-supplied start id (a Python `str` or `int`). -/
abbrev StartId := String ⊕ Int

/-- Python `str(start_id)`. -/
def pyStr : StartId → String
  | .inl s => s
  | .inr n => toString n

/-- Decimal string to integer, with optional leading minus. -/
def strToInt (s : String) : Option Int :=
  match s.data with
  | '-' :: ds => if ds ≠ [] && ds.all Char.isDigit then some (-(digitsToNat ds 0 : Int)) else none
  | ds => if ds ≠ [] && ds.all Char.isDigit then some ((digitsToNat ds 0 : Int)) else none

/-- Python `int(start_id)` (fallible on non-numeric strings). -/
def pyInt : StartId → Except String Int
  | .inr n => .ok n
  | .inl s =>
      match strToInt s with
      | some n => .ok n
      | none => .error "invalid literal for int()"

/-- Start coercion of `Backtracker.backtrack`; an unknown `start_type`
raises `ValueError("start_type must be inode/pid/socket")`. -/
def coerceStartB (start_type : String) (start_id : StartId) : Except String NodeKey :=
  if start_type = "inode" then .ok (.file (pyStr start_id))
  else if start_type = "pid" then (pyInt start_id).map NodeKey.proc
  else if start_type = "socket" then .ok (.sock (pyStr start_id))
  else .error "start_type must be inode/pid/socket"

/-- `Backtracker.backtrack` end to end (exceptions as `Except.error`).
The `timeCutoff` parameter is accepted but, as in the source, never read. -/
def Backtracker.backtrack (fi : String → Option Int) (events : List RawEvent)
    (start_type : String) (start_id : StartId) (maxHops : Nat := 20)
    (timeCutoff : Option Int := none) : Except String Graph :=
  (coerceStartB start_type start_id).map
    (fun k => backtrackFrom (backwardView fi events) k maxHops)

/-! ### Ghost contribution trace for the backward edge aggregation

`edge_map` is write-only during both passes, so the run factors through the
list of individual edge occurrences ("contributions") it merges.  The ghost
folds below collect that list alongside the unchanged traversal state. -/

/-- One merged edge occurrence: its aggregation key and the raw timestamp
offered at that occurrence. -/
structure Contribution where
  key : EdgeKey
  ts : Option String
deriving DecidableEq, Repr

/-- Replay a contribution list through `bumpEdge`. -/
def bumpFold (em : EdgeMap) (cs : List Contribution) : EdgeMap :=
  cs.foldl (fun m c => bumpEdge m c.key c.ts) em

/-- Phase 1 with its contribution list. -/
def btContribs1 (maxHops : Nat) (view : List EventIdx) (st0 : BTState) :
    BTState × List Contribution :=
  view.foldl
    (fun p ev =>
      (edgesFromEventB ev).foldl
        (fun q t =>
          (btStep1 maxHops ev q.1 t,
           q.2 ++ (if btGuard1 maxHops q.1 t
                   then [{ key := (t.1, t.2.1, t.2.2), ts := ev.rawTs }]
                   else [])))
        p)
    (st0, [])

/-- Phase 2 with its contribution list. -/
def btContribs2 (susp : List Int) (view : List EventIdx)
    (p0 : BTState × List Contribution) : BTState × List Contribution :=
  view.foldl
    (fun p ev =>
      (btStep2 susp p.1 ev,
       p.2 ++ (match btEmit2 susp ev with
               | some e => [{ key := e.2, ts := ev.rawTs }]
               | none => [])))
    p0

/-- The contribution list of a full `backtrack` run. -/
def backtrackContribs (view : List EventIdx) (startKey : NodeKey) (maxHops : Nat) :
    List Contribution :=
  let p1 := btContribs1 maxHops view (initBTState startKey)
  (btContribs2 (suspiciousPids p1.1.nodesMeta) view p1).2

/-! ## Forward tracer (`tracker/forward_tracker.py`) -/

/-- A `proc_meta` entry. -/
structure ProcMeta where
  ppid : Option Int := none
  children : List Int := []
  exe : Option String := none
deriving DecidableEq, Repr

abbrev ProcMetaMap := List (Int × ProcMeta)

/-- One constructor-loop step of the `proc_meta` build: `setdefault` the
pid entry, overwrite its exe when truthy, and on a `ppid` set the parent
link and add the pid to the parent's children set. -/
def pmStep (m : ProcMetaMap) (ev : RawEvent) : ProcMetaMap :=
  match ev.pid with
  | none => m
  | some pid =>
      let meta := (alistGet m pid).getD {}
      let meta := if truthyS ev.exe then { meta with exe := ev.exe } else meta
      match ev.ppid with
      | none => alistSet m pid meta
      | some pp =>
          let meta := { meta with ppid := some pp }
          let m := alistSet m pid meta
          let pmeta := (alistGet m pp).getD {}
          let pmeta :=
            { pmeta with children :=
                if pmeta.children.contains pid then pmeta.children
                else pmeta.children ++ [pid] }
          alistSet m pp pmeta

/-- `proc_meta` over the whole raw input (source order). -/
def buildProcMeta (events : List RawEvent) : ProcMetaMap :=
  events.foldl pmStep []

/-- A `proc_activity` entry. -/
structure ActEntry where
  timestamp : Option String := none
  action : Option String := none
  target : Option String := none
deriving DecidableEq, Repr

/-- The `target` of `_activity_entry`: `file_path or inode`, else a socket
endpoint string when the event carries a socket. -/
def activityTarget (ev : RawEvent) : Option String :=
  let t := pyOrS ev.file_path ev.inode
  if truthyS t then t
  else
    match ev.socket with
    | none => t
    | some sock =>
        if truthyS sock.dst_ip && truthyI sock.dst_port then
          some ((sock.dst_ip.getD "") ++ ":" ++ toString (sock.dst_port.getD 0))
        else if truthyS sock.src_ip && truthyI sock.src_port then
          some ((sock.src_ip.getD "") ++ ":" ++ toString (sock.src_port.getD 0))
        else t

/-- `ForwardTracker._activity_entry`. -/
def activityEntry (ev : RawEvent) : ActEntry :=
  { timestamp := ev.timestamp
    action := pyOrS ev.action ev.edge_dir
    target := activityTarget ev }

/-- `proc_activity` over the whole raw input (source order). -/
def buildActivity (events : List RawEvent) : List (Int × List ActEntry) :=
  events.foldl
    (fun a ev =>
      match ev.pid with
      | none => a
      | some pid => alistSet a pid ((alistGet a pid).getD [] ++ [activityEntry ev]))
    []

/-- `ForwardTracker._edges_from_event`: the flow edge, then both
`proc_tree_down` / `proc_tree_up` structural edges when `ppid` differs. -/
def edgesFromEventF (ev : EventIdx) : List (NodeKey × NodeKey × String) :=
  let label := (pyOrS (pyOrS ev.action ev.edge_dir) (some "event")).getD "event"
  let fk := fileKey ev
  let pk : Option NodeKey := match ev.pid with
    | some p => some (.proc p)
    | none => none
  let flow : List (NodeKey × NodeKey × String) :=
    match ev.edge_dir, pk, fk with
    | some "process->file", some p, some f => [(p, f, label)]
    | some "file->process", some p, some f => [(f, p, label)]
    | some "process->socket", some p, _ =>
        (match socketKey ev with
         | some s => [(p, s, label)]
         | none => [])
    | some "socket->process", some p, _ =>
        (match socketKey ev with
         | some s => [(s, p, label)]
         | none => [])
    | _, _, _ => []
  let tree : List (NodeKey × NodeKey × String) :=
    match ev.ppid, pk with
    | some pp, some p =>
        if NodeKey.proc pp = p then []
        else
          [(NodeKey.proc pp, p, "proc_tree_down"), (p, NodeKey.proc pp, "proc_tree_up")]
    | _, _ => []
  flow ++ tree

/-- `ForwardTracker._record_node_attrs`: like the backward one except the
proc branch, which overwrites `exe` from the event and falls back to the
`proc_meta` exe. -/
def recordNodeAttrsF (pm : ProcMetaMap) (store : NodeStore) (key : NodeKey)
    (ev : Option EventIdx) : NodeStore :=
  let node := (alistGet store key).getD { type := nodeTypeOf key }
  let node :=
    match key with
    | .proc pid =>
        let node := { node with pid := node.pid.orElse (fun _ => some pid) }
        let evExe : Option String :=
          match ev with
          | some e => if truthyS e.exe then e.exe else none
          | none => none
        (match evExe with
         | some x => { node with exe := some x }
         | none =>
             let mExe := (alistGet pm pid).bind (fun m => m.exe)
             if truthyS mExe then { node with exe := node.exe.orElse (fun _ => mExe) }
             else node)
    | .file nid => recordFileAttrs node nid ev
    | .sock addr =>
        let node := { node with addr := node.addr.orElse (fun _ => some addr) }
        recordSockFields node (ev.bind (fun e => e.socket))
  alistSet store key node

/-- Traversal state of `ForwardTracker.forward`'s main loop. -/
structure FTState where
  depths : List (NodeKey × Nat)
  nodesMeta : NodeStore
  seen : List EdgeKey
  edges : List EdgeOut
  seq : Nat
deriving Repr

/-- The structural-edge labels excluded from `order` numbering. -/
def treeLabels : List String := ["proc_tree_down", "proc_tree_up"]

/-- `event_time < start_time` with both present (Python truthiness on the
two datetimes). -/
def beforeStart (startTime ts : Option Int) : Bool :=
  match startTime, ts with
  | some s, some t => decide (t < s)
  | _, _ => false

/-- `event_time > time_cutoff` with both present. -/
def beyondCutoff (cutoff ts : Option Int) : Bool :=
  match cutoff, ts with
  | some c, some t => decide (c < t)
  | _, _ => false

/-- One `(src, dst, label)` iteration of the forward main loop:
skip untainted sources and hop-bound overruns, record both endpoints,
de-duplicate edges by key (first wins, real-flow edges get the running
`order`), and lower `dst`'s depth. -/
def ftStep (pm : ProcMetaMap) (maxHops : Nat) (ev : EventIdx) (st : FTState)
    (t : NodeKey × NodeKey × String) : FTState :=
  let (src, dst, label) := t
  match alistGet st.depths src with
  | none => st
  | some dsrc =>
      let nextDepth := dsrc + 1
      if maxHops < nextDepth then st
      else
        let nm := recordNodeAttrsF pm
          (recordNodeAttrsF pm st.nodesMeta src (some ev)) dst (some ev)
        let key : EdgeKey := (src, dst, label)
        let (seen, edges, seq) :=
          if key ∈ st.seen then (st.seen, st.edges, st.seq)
          else
            (st.seen ++ [key],
             st.edges ++
               [{ src := src, dst := dst, action := label, timestamp := ev.rawTs,
                  order := if treeLabels.contains label then none else some st.seq }],
             if treeLabels.contains label then st.seq else st.seq + 1)
        let depths :=
          match alistGet st.depths dst with
          | none => alistSet st.depths dst nextDepth
          | some ed =>
              if nextDepth < ed then alistSet st.depths dst nextDepth else st.depths
        { depths := depths, nodesMeta := nm, seen := seen, edges := edges, seq := seq }

/-- The forward main loop: `continue` on events strictly before the start
time, `break` on the first processed event strictly after the cutoff. -/
def ftScan (pm : ProcMetaMap) (maxHops : Nat) (startTime cutoff : Option Int) :
    List EventIdx → FTState → FTState
  | [], st => st
  | ev :: rest, st =>
      if beforeStart startTime ev.ts then ftScan pm maxHops startTime cutoff rest st
      else if beyondCutoff cutoff ev.ts then st
      else
        ftScan pm maxHops startTime cutoff rest
          ((edgesFromEventF ev).foldl (ftStep pm maxHops ev) st)

/-- State of `_augment_process_tree`. -/
structure AugState where
  nodesMeta : NodeStore
  seen : List EdgeKey
  edges : List EdgeOut
deriving Repr

/-- Add the `proc_tree_down` (ancestor→descendant) and `proc_tree_up`
structural edges if unseen; they carry no timestamp and no order. -/
def augPair (st : AugState) (anc desc : NodeKey) : AugState :=
  let k1 : EdgeKey := (anc, desc, "proc_tree_down")
  let st :=
    if k1 ∈ st.seen then st
    else
      { st with
        seen := st.seen ++ [k1]
        edges := st.edges ++
          [{ src := anc, dst := desc, action := "proc_tree_down",
             timestamp := none, order := none }] }
  let k2 : EdgeKey := (desc, anc, "proc_tree_up")
  if k2 ∈ st.seen then st
  else
    { st with
      seen := st.seen ++ [k2]
      edges := st.edges ++
        [{ src := desc, dst := anc, action := "proc_tree_up",
           timestamp := none, order := none }] }

/-- `_augment_process_tree` on one snapshot key: link a proc node to its
known parent and to each known child. -/
def augmentOne (pm : ProcMetaMap) (st : AugState) (key : NodeKey) : AugState :=
  match key with
  | .proc pidI =>
      (match alistGet pm pidI with
       | none => st
       | some meta =>
           let st :=
             match meta.ppid with
             | some pp =>
                 let st :=
                   { st with nodesMeta := recordNodeAttrsF pm st.nodesMeta (.proc pp) none }
                 augPair st (.proc pp) key
             | none => st
           meta.children.foldl
             (fun s c =>
               let s := { s with nodesMeta := recordNodeAttrsF pm s.nodesMeta (.proc c) none }
               augPair s key (.proc c))
             st)
  | _ => st

/-- `_augment_process_tree` over a snapshot of the node keys. -/
def augmentTree (pm : ProcMetaMap) (st : FTState) : AugState :=
  (st.nodesMeta.map (fun p => p.1)).foldl (augmentOne pm)
    { nodesMeta := st.nodesMeta, seen := st.seen, edges := st.edges }

/-- `"{timestamp} {action} {target}"` with falsy parts dropped, stripped. -/
def activityText (entry : ActEntry) : String :=
  let parts := [entry.timestamp.getD "", entry.action.getD "", entry.target.getD ""]
  pyStrip (String.intercalate " " (parts.filter (fun s => s != "")))

/-- The line-collecting loop of `_activity_label`: skip entries before the
start time and empty texts, stop after the fourth collected line. -/
def activityLinesAux (fi : String → Option Int) (startTime : Option Int) :
    List ActEntry → Nat → List String
  | [], _ => []
  | entry :: rest, count =>
      if beforeStart startTime (parse_iso fi entry.timestamp) then
        activityLinesAux fi startTime rest count
      else
        let text := activityText entry
        if text == "" then activityLinesAux fi startTime rest count
        else if 4 ≤ count + 1 then [text]
        else text :: activityLinesAux fi startTime rest (count + 1)

/-- `ForwardTracker._activity_label`. -/
def activityLabel (fi : String → Option Int) (activity : List (Int × List ActEntry))
    (pid : Option Int) (startTime : Option Int) : Option String :=
  match pid with
  | none => none
  | some p =>
      match alistGet activity p with
      | none => none
      | some history =>
          if history.isEmpty then none
          else
            let lines := activityLinesAux fi startTime history 0
            if lines.isEmpty then none
            else some (String.intercalate "\\n" lines)

/-- The forward output-node assembly: per-kind attribute selection, the
activity digest on proc nodes, and the shared `id` default chain. -/
def formatNodeF (fi : String → Option Int) (activity : List (Int × List ActEntry))
    (startTime : Option Int) (p : NodeKey × NodeAttrs) : NodeOut :=
  let a := p.2
  let base : NodeOut := { type := a.type, id := defaultNodeId p.1 a }
  if a.type = "proc" then
    { base with
      pid := a.pid
      exe := if truthyS a.exe then a.exe else none
      activity_label := activityLabel fi activity a.pid startTime }
  else if a.type = "file" then
    { base with
      inode := if truthyS a.inode then a.inode else none
      path := if truthyS a.path then a.path else none }
  else if a.type = "sock" then
    { base with
      addr := a.addr
      src_ip := a.src_ip
      src_port := a.src_port
      dst_ip := a.dst_ip
      dst_port := a.dst_port }
  else base

/-- `ForwardTracker._coerce_start`; an unknown `start_type` raises
`ValueError("start_type must be inode/pid/socket")`. -/
def coerceStartF (start_type : String) (start_id : StartId) : Except String NodeKey :=
  if start_type = "inode" then .ok (.file (pyStr start_id))
  else if start_type = "pid" then (pyInt start_id).map NodeKey.proc
  else if start_type = "socket" then .ok (.sock (pyStr start_id))
  else .error "start_type must be inode/pid/socket"

/-- Initial forward traversal state: depth 0 at the start node, which is
recorded without an event; `edge_seq` starts at 1. -/
def initFTState (pm : ProcMetaMap) (startKey : NodeKey) : FTState :=
  { depths := [(startKey, 0)]
    nodesMeta := recordNodeAttrsF pm [] startKey none
    seen := []
    edges := []
    seq := 1 }

/-- A `forward` run from an already-coerced start key and parsed start
time: main loop, process-tree augmentation, then assembly. -/
def forwardFrom (fi : String → Option Int) (pm : ProcMetaMap)
    (activity : List (Int × List ActEntry)) (view : List EventIdx)
    (startKey : NodeKey) (startTime : Option Int) (maxHops : Nat)
    (cutoff : Option Int) : Graph :=
  let st := ftScan pm maxHops startTime cutoff view (initFTState pm startKey)
  let aug := augmentTree pm st
  { nodes := aug.nodesMeta.map (formatNodeF fi activity startTime)
    edges := aug.edges }

/-- `ForwardTracker.forward` end to end (exceptions as `Except.error`). -/
def ForwardTracker.forward (fi : String → Option Int) (events : List RawEvent)
    (start_type : String) (start_id : StartId)
    (start_timestamp : Option String := none) (maxHops : Nat := 20)
    (cutoff : Option Int := none) : Except String Graph :=
  (coerceStartF start_type start_id).map (fun k =>
    let startTime := if truthyS start_timestamp then parse_iso fi start_timestamp else none
    forwardFrom fi (buildProcMeta events) (buildActivity events)
      (forwardView fi events) k startTime maxHops cutoff)

/-! ## Tag pool and detection (`utils/tag_pool.py`, `main.py`) -/

/-- `TagPool.__init__`: trim entries, discard falsy/blank ones.  The Python
set is modelled as this list up to membership (only membership, emptiness
and the sorted intersection are consumed). -/
def mkTagPool (tags : List String) : List String :=
  (tags.filter (fun t => t != "" && pyStrip t != "")).map pyStrip

/-- `TagPool.match`: the sub-multiset of `event_tags` lying in the pool
(`none`/empty tag lists match nothing); its set is the intersection. -/
def tagPoolMatch (pool : List String) (event_tags : Option (List String)) :
    List String :=
  match event_tags with
  | none => []
  | some ts => if ts.isEmpty then [] else ts.filter (fun t => pool.contains t)

/-- Python `sorted(matched)` for a matched set: deduplicate and sort
ascending (a sorted duplicate-free list is determined by membership). -/
def sortedTagSet (l : List String) : List String :=
  stableSort (fun a b => decide (a < b)) l.dedup

/-- A detection record of `detect_suspicious_events`. -/
structure Detection where
  index : Nat
  matched_tags : List String
  event : RawEvent
deriving DecidableEq, Repr

/-- `detect_suspicious_events` from `main.py`. -/
def detect_suspicious_events (events : List RawEvent) (pool : List String) :
    List Detection :=
  events.enum.filterMap (fun p =>
    let matched := tagPoolMatch pool (some p.2.tags)
    if matched.isEmpty then none
    else some { index := p.1, matched_tags := sortedTagSet matched, event := p.2 })

/-! ### Ghost generation-tagged forward scan

The forward main loop appends edges while walking the view once; the
tagged scan below additionally stamps each appended edge with the view
position of its generating event, to state the order/emission-time
correspondence. -/

/-- An output edge stamped with the view position that generated it. -/
structure TaggedEdge where
  edge : EdgeOut
  gen : Nat
deriving DecidableEq, Repr

/-- Forward traversal state with tagged edges. -/
structure FTStateT where
  depths : List (NodeKey × Nat)
  nodesMeta : NodeStore
  seen : List EdgeKey
  edges : List TaggedEdge
  seq : Nat
deriving Repr

/-- Forget the generation stamps. -/
def eraseT (st : FTStateT) : FTState :=
  { depths := st.depths, nodesMeta := st.nodesMeta, seen := st.seen,
    edges := st.edges.map TaggedEdge.edge, seq := st.seq }

/-- `ftStep` with a generation stamp `i`. -/
def ftStepT (pm : ProcMetaMap) (maxHops : Nat) (i : Nat) (ev : EventIdx)
    (st : FTStateT) (t : NodeKey × NodeKey × String) : FTStateT :=
  let (src, dst, label) := t
  match alistGet st.depths src with
  | none => st
  | some dsrc =>
      let nextDepth := dsrc + 1
      if maxHops < nextDepth then st
      else
        let nm := recordNodeAttrsF pm
          (recordNodeAttrsF pm st.nodesMeta src (some ev)) dst (some ev)
        let key : EdgeKey := (src, dst, label)
        let (seen, edges, seq) :=
          if key ∈ st.seen then (st.seen, st.edges, st.seq)
          else
            (st.seen ++ [key],
             st.edges ++
               [{ edge := { src := src, dst := dst, action := label,
                            timestamp := ev.rawTs,
                            order := if treeLabels.contains label then none
                                     else some st.seq }
                  gen := i }],
             if treeLabels.contains label then st.seq else st.seq + 1)
        let depths :=
          match alistGet st.depths dst with
          | none => alistSet st.depths dst nextDepth
          | some ed =>
              if nextDepth < ed then alistSet st.depths dst nextDepth else st.depths
        { depths := depths, nodesMeta := nm, seen := seen, edges := edges, seq := seq }

/-- The tagged image of `initFTState`. -/
def initFTStateT (pm : ProcMetaMap) (startKey : NodeKey) : FTStateT :=
  { depths := [(startKey, 0)]
    nodesMeta := recordNodeAttrsF pm [] startKey none
    seen := []
    edges := []
    seq := 1 }

/-- `ftScan` with generation stamps, starting at view position `i`. -/
def ftScanT (pm : ProcMetaMap) (maxHops : Nat) (startTime cutoff : Option Int) :
    Nat → List EventIdx → FTStateT → FTStateT
  | _, [], st => st
  | i, ev :: rest, st =>
      if beforeStart startTime ev.ts then
        ftScanT pm maxHops startTime cutoff (i + 1) rest st
      else if beyondCutoff cutoff ev.ts then st
      else
        ftScanT pm maxHops startTime cutoff (i + 1) rest
          ((edgesFromEventF ev).foldl (ftStepT pm maxHops i ev) st)

/-! ## Concrete inputs used by the counterexample and witness theorems -/

/-- A concrete ISO parser for small examples: a lookup table on the
timestamp strings used below. -/
def exampleFi (s : String) : Option Int :=
  if s = "1" then some 1 else if s = "2" then some 2 else if s = "3" then some 3 else none

/-- A read by a `/bin/bash` process, implicating pid 100 backwards. -/
def c1Event0 : RawEvent :=
  { timestamp := some "2"
    action := some "read"
    pid := some 100
    exe := some "/bin/bash"
    file_path := some "/home/student/payload"
    inode := some "7"
    edge_dir := some "file->process" }

/-- An outbound connection by the same `/bin/bash` process. -/
def c1Event1 : RawEvent :=
  { timestamp := some "3"
    action := some "connect"
    pid := some 100
    socket := some { dst_ip := some "1.2.3.4", dst_port := some 443 }
    edge_dir := some "process->socket" }

/-- The backward trace of the run above. -/
def c1Graph : Graph :=
  (Backtracker.backtrack exampleFi [c1Event0, c1Event1] "pid" (Sum.inr 100) 5
    none).toOption.getD { nodes := [], edges := [] }

/-- A write to a noise path by the (tainted) start process. -/
def c2FwdEvent : RawEvent :=
  { timestamp := some "1"
    action := some "write"
    pid := some 200
    file_path := some "/usr/lib/x.so"
    edge_dir := some "process->file" }

/-- The forward trace of the run above. -/
def c2FwdGraph : Graph :=
  (ForwardTracker.forward exampleFi [c2FwdEvent] "pid" (Sum.inr 200) none 5
    none).toOption.getD { nodes := [], edges := [] }

/-- A read with an inode and a noise path, implicated backwards. -/
def c2BwdEvent : RawEvent :=
  { timestamp := some "1"
    action := some "read"
    pid := some 300
    inode := some "99"
    file_path := some "/usr/lib/x.so"
    edge_dir := some "file->process" }

/-- The backward trace of the run above. -/
def c2BwdGraph : Graph :=
  (Backtracker.backtrack exampleFi [c2BwdEvent] "pid" (Sum.inr 300) 5
    none).toOption.getD { nodes := [], edges := [] }

/-- A single connect event whose socket is the backward start node: it is
matched by the reverse traversal and again by the egress pass. -/
def c3Event : RawEvent :=
  { timestamp := some "2"
    action := some "connect"
    pid := some 7
    exe := some "/mal"
    socket := some { dst_ip := some "1.2.3.4", dst_port := some 443 }
    edge_dir := some "process->socket" }

/-- The backward trace of the run above. -/
def c3Graph : Graph :=
  (Backtracker.backtrack exampleFi [c3Event] "socket" (Sum.inl "1.2.3.4:443") 5
    none).toOption.getD { nodes := [], edges := [] }

/-- A fork event strictly before the forward start timestamp. -/
def c4EventFork : RawEvent :=
  { timestamp := some "1"
    action := some "fork"
    pid := some 5
    ppid := some 3 }

/-- A write by pid 5 after the forward start timestamp. -/
def c4EventWrite : RawEvent :=
  { timestamp := some "3"
    action := some "write"
    pid := some 5
    file_path := some "/x"
    edge_dir := some "process->file" }

/-- Forward trace including the pre-start fork event. -/
def c4GraphFull : Graph :=
  (ForwardTracker.forward exampleFi [c4EventFork, c4EventWrite] "pid" (Sum.inr 5)
    (some "2") 5 none).toOption.getD { nodes := [], edges := [] }

/-- Forward trace with the pre-start fork event removed from the input. -/
def c4GraphDropped : Graph :=
  (ForwardTracker.forward exampleFi [c4EventWrite] "pid" (Sum.inr 5)
    (some "2") 5 none).toOption.getD { nodes := [], edges := [] }

/-! # Theorems -/

/-! ## Association-list lemmas -/

theorem alistGet_alistSet_self {κ ν : Type} [DecidableEq κ] (m : List (κ × ν))
    (k : κ) (v : ν) : alistGet (alistSet m k v) k = some v := by
  induction m with
  | nil => simp [alistSet, alistGet]
  | cons p rest ih =>
      by_cases h : p.1 = k
      · simp [alistSet, alistGet, h]
      · simpa [alistSet, alistGet, h] using ih

theorem alistGet_alistSet_ne {κ ν : Type} [DecidableEq κ] (m : List (κ × ν))
    (k : κ) (v : ν) (a : κ) (h : a ≠ k) :
    alistGet (alistSet m k v) a = alistGet m a := by
  induction m with
  | nil => simp [alistSet, alistGet, Ne.symm h]
  | cons p rest ih =>
      by_cases hp : p.1 = k
      · subst hp
        simp [alistSet, alistGet, Ne.symm h]
      · by_cases ha : p.1 = a
        · simp [alistSet, alistGet, hp, ha, h]
        · simpa [alistSet, alistGet, hp, ha] using ih

theorem keys_alistSet {κ ν : Type} [DecidableEq κ] (m : List (κ × ν)) (k : κ) (v : ν) :
    (alistSet m k v).map Prod.fst =
      if k ∈ m.map Prod.fst then m.map Prod.fst else m.map Prod.fst ++ [k] := by
  induction m with
  | nil => simp [alistSet]
  | cons p rest ih =>
      by_cases hp : p.1 = k
      · simp [alistSet, hp]
      · simp only [alistSet, hp, if_false, List.map_cons, List.mem_cons, ih]
        by_cases hk : k ∈ rest.map Prod.fst <;>
          simp [hk, Ne.symm hp, hp, fun h : k = p.1 => hp h.symm]

theorem mem_keys_alistSet {κ ν : Type} [DecidableEq κ] (m : List (κ × ν))
    (k : κ) (v : ν) (a : κ) :
    a ∈ (alistSet m k v).map Prod.fst ↔ a ∈ m.map Prod.fst ∨ a = k := by
  rw [keys_alistSet]
  by_cases hk : k ∈ m.map Prod.fst
  · simp only [hk, if_true]
    constructor
    · exact fun h => Or.inl h
    · rintro (h | rfl)
      · exact h
      · exact hk
  · simp [hk]

theorem nodup_keys_alistSet {κ ν : Type} [DecidableEq κ] (m : List (κ × ν))
    (k : κ) (v : ν) (h : (m.map Prod.fst).Nodup) :
    ((alistSet m k v).map Prod.fst).Nodup := by
  rw [keys_alistSet]
  by_cases hk : k ∈ m.map Prod.fst
  · simpa [hk] using h
  · simp only [hk, if_false]
    exact List.Nodup.append h (List.nodup_singleton k)
      (fun a ha hb => hk ((List.mem_singleton.mp hb) ▸ ha))

theorem alistGet_eq_of_mem_nodup {κ ν : Type} [DecidableEq κ]
    {m : List (κ × ν)} {k : κ} {v : ν}
    (hn : (m.map Prod.fst).Nodup) (hm : (k, v) ∈ m) : alistGet m k = some v := by
  induction m with
  | nil => cases hm
  | cons p rest ih =>
      rcases List.mem_cons.mp hm with hm1 | hm1
      · rw [← hm1]
        simp [alistGet]
      · have hk : p.1 ≠ k := by
          intro hpk
          have hmem : p.1 ∈ rest.map Prod.fst :=
            List.mem_map.mpr ⟨(k, v), hm1, by simp [hpk]⟩
          exact (List.nodup_cons.mp (by simpa using hn)).1 hmem
        have := ih (List.nodup_cons.mp (by simpa using hn)).2 hm1
        simpa [alistGet, hk] using this

theorem mem_of_alistGet_eq_some {κ ν : Type} [DecidableEq κ]
    {m : List (κ × ν)} {k : κ} {v : ν}
    (h : alistGet m k = some v) : (k, v) ∈ m := by
  induction m with
  | nil => simp [alistGet] at h
  | cons p rest ih =>
      by_cases hp : p.1 = k
      · have : p.2 = v := by
          simpa [alistGet, List.find?_cons_of_pos, hp] using h
        exact List.mem_cons.mpr (Or.inl (by
          cases p
          simp_all))
      · have : alistGet rest k = some v := by
          simpa [alistGet, List.find?_cons_of_neg, hp] using h
        exact List.mem_cons.mpr (Or.inr (ih this))

/-! ## Stable-sort lemmas -/

theorem insertStable_perm {α : Type} (lt : α → α → Bool) (x : α) (l : List α) :
    List.Perm (insertStable lt x l) (x :: l) := by
  induction l with
  | nil => simp [insertStable]
  | cons y ys ih =>
      by_cases h : lt y x
      · simp only [insertStable, h, if_true]
        exact (ih.cons y).trans (List.Perm.swap x y ys)
      · simp [insertStable, h]

theorem stableSort_perm {α : Type} (lt : α → α → Bool) (l : List α) :
    List.Perm (stableSort lt l) l := by
  induction l with
  | nil => exact List.Perm.refl _
  | cons x xs ih => exact (insertStable_perm lt x (stableSort lt xs)).trans (ih.cons x)

theorem insertStable_pairwise {α : Type} (c : α → α → Bool) (pos : α → Nat)
    (htrans : ∀ a b d, c a b = true → c b d = true → c a d = true)
    (hntrans : ∀ a b d, c a b = false → c b d = false → c a d = false)
    (x : α) (s : List α)
    (hs : s.Pairwise (fun a b =>
      c a b = true ∨ (c a b = false ∧ c b a = false ∧ pos a < pos b)))
    (hx : ∀ y ∈ s, pos x < pos y) :
    (insertStable c x s).Pairwise (fun a b =>
      c a b = true ∨ (c a b = false ∧ c b a = false ∧ pos a < pos b)) := by
  induction s with
  | nil => simp [insertStable]
  | cons y ys ih =>
      rcases List.pairwise_cons.mp hs with ⟨hy, hys⟩
      by_cases h : c y x
      · simp only [insertStable, h, if_true]
        rw [List.pairwise_cons]
        refine ⟨?_, ih hys (fun z hz => hx z (List.mem_cons_of_mem y hz))⟩
        intro z hz
        have hz2 : z ∈ x :: ys := (insertStable_perm c x ys).mem_iff.mp hz
        rcases List.mem_cons.mp hz2 with rfl | hz3
        · exact Or.inl h
        · exact hy z hz3
      · have hyx : c y x = false := by simpa using h
        simp only [insertStable, hyx, Bool.false_eq_true, if_false]
        rw [List.pairwise_cons]
        constructor
        · intro z hz
          rcases List.mem_cons.mp hz with rfl | hz3
          · by_cases hxz : c x z
            · exact Or.inl hxz
            · exact Or.inr ⟨by simpa using hxz, hyx, hx z (List.mem_cons_self z ys)⟩
          · rcases hy z hz3 with hyz | ⟨hyz, hzy, _⟩
            · by_cases hxz : c x z
              · exact Or.inl hxz
              · refine Or.inr ⟨by simpa using hxz, ?_, hx z (List.mem_cons_of_mem y hz3)⟩
                by_cases hzx : c z x
                · exact absurd (htrans y z x hyz hzx) (by simp [hyx])
                · simpa using hzx
            · by_cases hxz : c x z
              · exact Or.inl hxz
              · refine Or.inr ⟨by simpa using hxz, ?_, hx z (List.mem_cons_of_mem y hz3)⟩
                exact hntrans z y x hzy hyx
        · exact hs

theorem stableSort_pairwise {α : Type} (c : α → α → Bool) (pos : α → Nat)
    (htrans : ∀ a b d, c a b = true → c b d = true → c a d = true)
    (hntrans : ∀ a b d, c a b = false → c b d = false → c a d = false)
    (l : List α) (hl : l.Pairwise (fun a b => pos a < pos b)) :
    (stableSort c l).Pairwise (fun a b =>
      c a b = true ∨ (c a b = false ∧ c b a = false ∧ pos a < pos b)) := by
  induction l with
  | nil => simp [stableSort]
  | cons x xs ih =>
      rcases List.pairwise_cons.mp hl with ⟨hxp, hxs⟩
      refine insertStable_pairwise c pos htrans hntrans x _ (ih hxs) ?_
      intro y hy
      exact hxp y ((stableSort_perm c xs).mem_iff.mp hy)

theorem pairwise_fst_enumFrom {α : Type} (l : List α) (n : Nat) :
    (l.enumFrom n).Pairwise (fun a b => a.1 < b.1) := by
  induction l generalizing n with
  | nil => simp
  | cons x xs ih =>
      rw [List.enumFrom_cons, List.pairwise_cons]
      refine ⟨?_, ih (n + 1)⟩
      intro b hb
      have := (List.mk_mem_enumFrom_iff_le_and_getElem?_sub.mp (by exact hb)).1
      omega

theorem pairwise_eid_indexEvents (fi : String → Option Int) (events : List RawEvent) :
    (indexEvents fi events).Pairwise (fun a b => a.eid < b.eid) := by
  unfold indexEvents
  rw [List.pairwise_map]
  have := pairwise_fst_enumFrom events 0
  exact this.imp (fun h => by simpa [mkEventIdx] using h)

theorem sortKeyB_eq_top_iff (a : EventIdx) : sortKeyB a = ⊤ ↔ a.ts = none := by
  cases h : a.ts with
  | none => simp [sortKeyB, h]
  | some t => simp [sortKeyB, h]

theorem sortKeyF_eq_bot_iff (a : EventIdx) : sortKeyF a = ⊥ ↔ a.ts = none := by
  cases h : a.ts with
  | none => simp [sortKeyF, h]
  | some t => simp [sortKeyF, h]

/-! ## Claim theorems -/

/-- C1: the egress-enrichment pass is claimed to skip processes whose exe
is in the pass-through-shell denylist.  The code computes that filtered pid
set but immediately overwrites it with the unfiltered one, so a `/bin/bash`
process implicated by the reverse traversal does receive an egress connect
edge: on the concrete run below, pid 100 has exe `/bin/bash` (which is in
the denylist, and the dead filtered set is empty), yet the output contains
the egress edge `proc 100 → sock 1.2.3.4:443` labelled `connect`. -/
theorem c1_shell_egress_not_filtered :
    Backtracker.backtrack exampleFi [c1Event0, c1Event1] "pid" (Sum.inr 100) 5 none =
      Except.ok c1Graph ∧
    (c1Graph.nodes.any fun n =>
      n.type == "proc" && n.pid == some 100 && n.exe == some "/bin/bash") = true ∧
    ("/bin/bash" ∈ ignore_egress_exes) ∧
    (c1Graph.edges.any fun e =>
      e.src == NodeKey.proc 100 && e.dst == NodeKey.sock "1.2.3.4:443" &&
        e.action == "connect") = true ∧
    suspiciousPidsFiltered
      (btPhase1 5 (backwardView exampleFi [c1Event0, c1Event1])
        (initBTState (NodeKey.proc 100))).nodesMeta = [] :=
  ⟨rfl, by decide, by decide, by decide, by decide⟩

/-- C2 (counterexample): the noise-exclusion invariant fails as stated.
The forward tracer applies no noise predicate at all: a write to
`/usr/lib/x.so` (a noise path) puts that file node into the forward trace.
And a backward file node keyed by an inode can carry a noise path as its
`path` attribute. -/
theorem c2_noise_exclusion_counterexample :
    is_noise_file "/usr/lib/x.so" = true ∧
    ForwardTracker.forward exampleFi [c2FwdEvent] "pid" (Sum.inr 200) none 5 none =
      Except.ok c2FwdGraph ∧
    (c2FwdGraph.nodes.any fun n =>
      n.type == "file" && n.path == some "/usr/lib/x.so") = true ∧
    Backtracker.backtrack exampleFi [c2BwdEvent] "pid" (Sum.inr 300) 5 none =
      Except.ok c2BwdGraph ∧
    (c2BwdGraph.nodes.any fun n =>
      n.type == "file" && n.inode == some "99" && n.path == some "/usr/lib/x.so") = true :=
  ⟨by decide, rfl, by decide, rfl, by decide⟩

/-- C3 (counterexample): the `(xN)` count does not count contributing
*events*: a single connect event whose socket is the start node is merged
once by the reverse traversal and once more by the egress pass, so the one
event below yields the label `connect (x2)`. -/
theorem c3_count_counterexample :
    ([c3Event].length = 1) ∧
    Backtracker.backtrack exampleFi [c3Event] "socket" (Sum.inl "1.2.3.4:443") 5 none =
      Except.ok c3Graph ∧
    (c3Graph.edges.any fun e => e.action == "connect (x2)") = true ∧
    (c3Graph.edges.length = 1) :=
  ⟨rfl, rfl, by decide, by decide⟩

/-- C4 (counterexample): an event strictly before `start_timestamp` can
still contribute nodes and edges to the forward result: the pre-start fork
event below populates `proc_meta`, and the process-tree augmentation then
emits the `proc 3` node and both structural edges; dropping that event
removes them. -/
theorem c4_time_gating_counterexample :
    parse_iso exampleFi (some "1") = some 1 ∧
    parse_iso exampleFi (some "2") = some 2 ∧
    ((1 : Int) < 2) ∧
    ForwardTracker.forward exampleFi [c4EventFork, c4EventWrite] "pid" (Sum.inr 5)
      (some "2") 5 none = Except.ok c4GraphFull ∧
    ForwardTracker.forward exampleFi [c4EventWrite] "pid" (Sum.inr 5)
      (some "2") 5 none = Except.ok c4GraphDropped ∧
    (c4GraphFull.nodes.any fun n => n.type == "proc" && n.pid == some 3) = true ∧
    (c4GraphFull.edges.any fun e => e.action == "proc_tree_down") = true ∧
    (c4GraphDropped.nodes.any fun n => n.type == "proc" && n.pid == some 3) = false ∧
    (c4GraphDropped.edges.any fun e => e.action == "proc_tree_down") = false :=
  ⟨by decide, by decide, by decide, rfl, rfl, by decide, by decide, by decide, by decide⟩

/-- The forward main loop is equivalent to running on the view truncated at
the first event that triggers the cutoff break, with the pre-start events
removed. -/
theorem ftScan_gated (pm : ProcMetaMap) (maxHops : Nat) (startTime cutoff : Option Int)
    (view : List EventIdx) (st : FTState) :
    ftScan pm maxHops startTime cutoff view st =
      ftScan pm maxHops startTime cutoff
        ((view.takeWhile
            (fun e => !(beyondCutoff cutoff e.ts && !beforeStart startTime e.ts))).filter
          (fun e => !beforeStart startTime e.ts)) st := by
  induction view generalizing st with
  | nil => rfl
  | cons ev rest ih =>
      by_cases hb : beforeStart startTime ev.ts
      · have h1 : (!(beyondCutoff cutoff ev.ts && !beforeStart startTime ev.ts)) = true := by
          simp [hb]
        rw [List.takeWhile_cons]
        simp only [h1, if_true]
        rw [List.filter_cons]
        simp only [hb, Bool.not_true, Bool.false_eq_true, if_false]
        conv_lhs => rw [ftScan]
        simp only [hb, if_true]
        exact ih st
      · have hbf : beforeStart startTime ev.ts = false := by simpa using hb
        by_cases hc : beyondCutoff cutoff ev.ts
        · have h1 : (!(beyondCutoff cutoff ev.ts && !beforeStart startTime ev.ts)) = false := by
            simp [hb, hc]
          rw [List.takeWhile_cons]
          simp only [h1, Bool.false_eq_true, if_false, List.filter_nil]
          conv_lhs => rw [ftScan]
          simp only [hbf, Bool.false_eq_true, if_false, hc, if_true]
          rfl
        · have hcf : beyondCutoff cutoff ev.ts = false := by simpa using hc
          have h1 : (!(beyondCutoff cutoff ev.ts && !beforeStart startTime ev.ts)) = true := by
            simp [hcf]
          rw [List.takeWhile_cons]
          simp only [h1, if_true]
          rw [List.filter_cons]
          simp only [hbf, Bool.not_false, if_true]
          conv_lhs => rw [ftScan]
          conv_rhs => rw [ftScan]
          simp only [hbf, Bool.false_eq_true, if_false, hcf]
          exact ih _

/-- C4 (amended): the forward main loop ignores events strictly before the
start time and stops at the first in-gate event strictly after the cutoff:
the whole forward result is unchanged when the view is replaced by its
gate-surviving prefix; every surviving event passes both gates; events with
a missing parsed timestamp pass both gates.  (Pre-start events can still
reach the output through the index-time `proc_meta`: see the
counterexample.) -/
theorem c4_forward_time_gating (pm : ProcMetaMap) (maxHops : Nat)
    (startTime cutoff : Option Int) (view : List EventIdx) :
    (∀ st : FTState,
      ftScan pm maxHops startTime cutoff view st =
        ftScan pm maxHops startTime cutoff
          ((view.takeWhile
              (fun e => !(beyondCutoff cutoff e.ts && !beforeStart startTime e.ts))).filter
            (fun e => !beforeStart startTime e.ts)) st) ∧
    (∀ e ∈ (view.takeWhile
              (fun e => !(beyondCutoff cutoff e.ts && !beforeStart startTime e.ts))).filter
            (fun e => !beforeStart startTime e.ts),
      beforeStart startTime e.ts = false ∧ beyondCutoff cutoff e.ts = false) ∧
    beforeStart startTime none = false ∧
    beyondCutoff cutoff none = false ∧
    (∀ (fi : String → Option Int) (activity : List (Int × List ActEntry))
        (startKey : NodeKey),
      forwardFrom fi pm activity view startKey startTime maxHops cutoff =
        forwardFrom fi pm activity
          ((view.takeWhile
              (fun e => !(beyondCutoff cutoff e.ts && !beforeStart startTime e.ts))).filter
            (fun e => !beforeStart startTime e.ts))
          startKey startTime maxHops cutoff) := by
  refine ⟨ftScan_gated pm maxHops startTime cutoff view, ?_, ?_, ?_, ?_⟩
  · intro e he
    have hf := List.mem_filter.mp he
    have hp1 := List.mem_takeWhile_imp hf.1
    have hp2 := hf.2
    have hbf : beforeStart startTime e.ts = false := by
      simpa using hp2
    refine ⟨hbf, ?_⟩
    by_cases hc : beyondCutoff cutoff e.ts
    · rw [hc, hbf] at hp1
      simp at hp1
    · simpa using hc
  · cases startTime <;> rfl
  · cases cutoff <;> rfl
  · intro fi activity startKey
    unfold forwardFrom
    rw [ftScan_gated pm maxHops startTime cutoff view]

/-! ## Forward order lemmas (C5) -/

theorem eraseT_ftStepT (pm : ProcMetaMap) (maxHops : Nat) (i : Nat) (ev : EventIdx)
    (st : FTStateT) (t : NodeKey × NodeKey × String) :
    eraseT (ftStepT pm maxHops i ev st t) = ftStep pm maxHops ev (eraseT st) t := by
  obtain ⟨src, dst, label⟩ := t
  unfold ftStepT ftStep eraseT
  cases h : alistGet st.depths src with
  | none => simp [h]
  | some dsrc =>
      by_cases hm : maxHops < dsrc + 1
      · simp [h, hm]
      · by_cases hk : ((src, dst, label) : EdgeKey) ∈ st.seen
        · simp [h, hm, hk]
        · by_cases ht : treeLabels.contains label <;>
            cases h2 : alistGet st.depths dst <;>
            simp [h, hm, hk, ht, h2]

theorem eraseT_foldT (pm : ProcMetaMap) (maxHops : Nat) (i : Nat) (ev : EventIdx)
    (l : List (NodeKey × NodeKey × String)) (st : FTStateT) :
    eraseT (l.foldl (ftStepT pm maxHops i ev) st) =
      l.foldl (ftStep pm maxHops ev) (eraseT st) := by
  induction l generalizing st with
  | nil => rfl
  | cons t ts ih => rw [List.foldl_cons, List.foldl_cons, ih, eraseT_ftStepT]

theorem eraseT_ftScanT (pm : ProcMetaMap) (maxHops : Nat) (startTime cutoff : Option Int)
    (view : List EventIdx) (i : Nat) (st : FTStateT) :
    eraseT (ftScanT pm maxHops startTime cutoff i view st) =
      ftScan pm maxHops startTime cutoff view (eraseT st) := by
  induction view generalizing i st with
  | nil => rfl
  | cons ev rest ih =>
      rw [ftScanT, ftScan]
      by_cases hb : beforeStart startTime ev.ts
      · simp only [hb, if_true]
        exact ih _ _
      · simp only [hb, Bool.false_eq_true, if_false]
        by_cases hc : beyondCutoff cutoff ev.ts
        · simp [hc]
        · simp only [hc, Bool.false_eq_true, if_false]
          rw [ih, eraseT_foldT]



theorem foldl_preserve {α β : Type} {P : α → Prop} {f : α → β → α}
    (hstep : ∀ s x, P s → P (f s x)) :
    ∀ (l : List β) (s : α), P s → P (l.foldl f s)
  | [], _, h => h
  | x :: xs, s, h => foldl_preserve hstep xs (f s x) (hstep s x h)

theorem ftStep_order_inv (pm : ProcMetaMap) (maxHops : Nat) (ev : EventIdx)
    (st : FTState) (t : NodeKey × NodeKey × String)
    (h : st.edges.filterMap EdgeOut.order =
        List.range' 1 ((st.edges.filter (fun e => !(treeLabels.contains e.action))).length) ∧
      st.seq = (st.edges.filter (fun e => !(treeLabels.contains e.action))).length + 1 ∧
      ∀ e ∈ st.edges, treeLabels.contains e.action = true → e.order = none) :
    ((ftStep pm maxHops ev st t).edges.filterMap EdgeOut.order =
        List.range' 1
          (((ftStep pm maxHops ev st t).edges.filter
            (fun e => !(treeLabels.contains e.action))).length) ∧
      (ftStep pm maxHops ev st t).seq =
        (((ftStep pm maxHops ev st t).edges.filter
          (fun e => !(treeLabels.contains e.action))).length) + 1 ∧
      ∀ e ∈ (ftStep pm maxHops ev st t).edges,
        treeLabels.contains e.action = true → e.order = none) := by
  obtain ⟨src, dst, label⟩ := t
  obtain ⟨h1, h2, h3⟩ := h
  unfold ftStep
  cases hd : alistGet st.depths src with
  | none => simp only [hd]; exact ⟨h1, h2, h3⟩
  | some dsrc =>
      simp only [hd]
      by_cases hm : maxHops < dsrc + 1
      · simp only [hm, if_true]
        exact ⟨h1, h2, h3⟩
      · simp only [hm, if_false]
        by_cases hk : ((src, dst, label) : EdgeKey) ∈ st.seen
        · simp only [hk, if_true]
          exact ⟨h1, h2, h3⟩
        · simp only [hk, if_false]
          by_cases ht : treeLabels.contains label
          · have ht2 : label ∈ treeLabels := by simpa using ht
            simp only [ht, if_true]
            refine ⟨?_, ?_, ?_⟩
            · simpa [List.filterMap_append, List.filter_append, ht2] using h1
            · simpa [List.filter_append, ht2] using h2
            · intro e he
              rcases List.mem_append.mp he with he1 | he2
              · exact h3 e he1
              · obtain rfl := List.mem_singleton.mp he2
                intro _
                rfl
          · have htb : treeLabels.contains label = false := by simpa using ht
            simp only [ht, Bool.false_eq_true, if_false]
            refine ⟨?_, ?_, ?_⟩
            · rw [List.filterMap_append, List.filter_append, h1]
              simp only [List.filterMap_cons, List.filter_cons]
              simp only [htb, Bool.not_false, if_true]
              rw [List.length_append]
              simp only [List.filterMap_nil, List.filter_nil, List.length_cons,
                List.length_nil]
              rw [h2]
              rw [List.range'_1_concat]
              simp [Nat.add_comm]
            · rw [List.filter_append, List.length_append]
              simp only [List.filter_cons, htb, Bool.not_false, if_true,
                List.filter_nil, List.length_cons, List.length_nil]
              rw [h2]
            · intro e he
              rcases List.mem_append.mp he with he1 | he2
              · exact h3 e he1
              · obtain rfl := List.mem_singleton.mp he2
                intro hcon
                exact absurd hcon ht



theorem order_inv_append_tree (edges : List EdgeOut) (e : EdgeOut)
    (hact : treeLabels.contains e.action = true) (hord : e.order = none)
    (h1 : edges.filterMap EdgeOut.order =
      List.range' 1 ((edges.filter (fun x => !(treeLabels.contains x.action))).length))
    (h3 : ∀ x ∈ edges, treeLabels.contains x.action = true → x.order = none) :
    ((edges ++ [e]).filterMap EdgeOut.order =
      List.range' 1
        (((edges ++ [e]).filter (fun x => !(treeLabels.contains x.action))).length)) ∧
    (∀ x ∈ edges ++ [e], treeLabels.contains x.action = true → x.order = none) := by
  constructor
  · rw [List.filterMap_append, List.filter_append]
    simp only [List.filterMap_cons, List.filter_cons, hact, hord, Bool.not_true,
      Bool.false_eq_true, if_false, List.filterMap_nil, List.filter_nil,
      List.append_nil]
    exact h1
  · intro x hx
    rcases List.mem_append.mp hx with hx1 | hx2
    · exact h3 x hx1
    · obtain rfl := List.mem_singleton.mp hx2
      intro _
      exact hord

theorem augPair_order_inv (st : AugState) (anc desc : NodeKey)
    (h1 : st.edges.filterMap EdgeOut.order =
      List.range' 1 ((st.edges.filter (fun x => !(treeLabels.contains x.action))).length))
    (h3 : ∀ x ∈ st.edges, treeLabels.contains x.action = true → x.order = none) :
    ((augPair st anc desc).edges.filterMap EdgeOut.order =
      List.range' 1
        (((augPair st anc desc).edges.filter
          (fun x => !(treeLabels.contains x.action))).length)) ∧
    (∀ x ∈ (augPair st anc desc).edges,
      treeLabels.contains x.action = true → x.order = none) := by
  unfold augPair
  by_cases hk1 : ((anc, desc, "proc_tree_down") : EdgeKey) ∈ st.seen
  · simp only [hk1, if_true]
    by_cases hk2 : ((desc, anc, "proc_tree_up") : EdgeKey) ∈ st.seen
    · simp only [hk2, if_true]
      exact ⟨h1, h3⟩
    · simp only [hk2, if_false]
      exact order_inv_append_tree st.edges _ rfl rfl h1 h3
  · simp only [hk1, if_false]
    have step1 := order_inv_append_tree st.edges
      ({ src := anc, dst := desc, action := "proc_tree_down", timestamp := none,
         order := none }) rfl rfl h1 h3
    by_cases hk2 : ((desc, anc, "proc_tree_up") : EdgeKey) ∈
        st.seen ++ [((anc, desc, "proc_tree_down") : EdgeKey)]
    · simp only [hk2, if_true]
      exact step1
    · simp only [hk2, if_false]
      exact order_inv_append_tree _ _ rfl rfl step1.1 step1.2



theorem augmentOne_order_inv (pm : ProcMetaMap) (st : AugState) (key : NodeKey)
    (h1 : st.edges.filterMap EdgeOut.order =
      List.range' 1 ((st.edges.filter (fun x => !(treeLabels.contains x.action))).length))
    (h3 : ∀ x ∈ st.edges, treeLabels.contains x.action = true → x.order = none) :
    ((augmentOne pm st key).edges.filterMap EdgeOut.order =
      List.range' 1
        (((augmentOne pm st key).edges.filter
          (fun x => !(treeLabels.contains x.action))).length)) ∧
    (∀ x ∈ (augmentOne pm st key).edges,
      treeLabels.contains x.action = true → x.order = none) := by
  cases key with
  | file s => exact ⟨h1, h3⟩
  | sock a => exact ⟨h1, h3⟩
  | proc pidI =>
      unfold augmentOne
      cases hm : alistGet pm pidI with
      | none => simp only [hm]; exact ⟨h1, h3⟩
      | some meta =>
          simp only [hm]
          have hpar :
              ∀ (st1 : AugState),
                (st1.edges.filterMap EdgeOut.order =
                  List.range' 1
                    ((st1.edges.filter (fun x => !(treeLabels.contains x.action))).length)) ∧
                (∀ x ∈ st1.edges, treeLabels.contains x.action = true → x.order = none) →
                ∀ (l : List Int),
                  ((l.foldl (fun s c =>
                      augPair { s with
                        nodesMeta := recordNodeAttrsF pm s.nodesMeta (.proc c) none }
                        (NodeKey.proc pidI) (.proc c)) st1).edges.filterMap EdgeOut.order =
                    List.range' 1
                      (((l.foldl (fun s c =>
                          augPair { s with
                            nodesMeta := recordNodeAttrsF pm s.nodesMeta (.proc c) none }
                            (NodeKey.proc pidI) (.proc c)) st1).edges.filter
                        (fun x => !(treeLabels.contains x.action))).length)) ∧
                  (∀ x ∈ (l.foldl (fun s c =>
                      augPair { s with
                        nodesMeta := recordNodeAttrsF pm s.nodesMeta (.proc c) none }
                        (NodeKey.proc pidI) (.proc c)) st1).edges,
                    treeLabels.contains x.action = true → x.order = none) := by
            intro st1 hst1 l
            exact @foldl_preserve AugState Int
              (fun s =>
                (s.edges.filterMap EdgeOut.order =
                  List.range' 1
                    ((s.edges.filter (fun x => !(treeLabels.contains x.action))).length)) ∧
                (∀ x ∈ s.edges, treeLabels.contains x.action = true → x.order = none))
              (fun s c => augPair
                { s with nodesMeta := recordNodeAttrsF pm s.nodesMeta (NodeKey.proc c) none }
                (NodeKey.proc pidI) (NodeKey.proc c))
              (fun s c hs => augPair_order_inv
                { s with nodesMeta := recordNodeAttrsF pm s.nodesMeta (NodeKey.proc c) none }
                (NodeKey.proc pidI) (NodeKey.proc c) hs.1 hs.2) l st1 hst1
          cases hp : meta.ppid with
          | none =>
              simp only [hp]
              exact hpar st ⟨h1, h3⟩ meta.children
          | some pp =>
              simp only [hp]
              have hstep := augPair_order_inv
                { st with nodesMeta := recordNodeAttrsF pm st.nodesMeta (.proc pp) none }
                (NodeKey.proc pp) (NodeKey.proc pidI) h1 h3
              exact hpar _ hstep meta.children

theorem augmentTree_order_inv (pm : ProcMetaMap) (st : FTState)
    (h1 : st.edges.filterMap EdgeOut.order =
      List.range' 1 ((st.edges.filter (fun x => !(treeLabels.contains x.action))).length))
    (h3 : ∀ x ∈ st.edges, treeLabels.contains x.action = true → x.order = none) :
    ((augmentTree pm st).edges.filterMap EdgeOut.order =
      List.range' 1
        (((augmentTree pm st).edges.filter
          (fun x => !(treeLabels.contains x.action))).length)) ∧
    (∀ x ∈ (augmentTree pm st).edges,
      treeLabels.contains x.action = true → x.order = none) := by
  unfold augmentTree
  exact @foldl_preserve AugState NodeKey
    (fun s =>
      (s.edges.filterMap EdgeOut.order =
        List.range' 1
          ((s.edges.filter (fun x => !(treeLabels.contains x.action))).length)) ∧
      (∀ x ∈ s.edges, treeLabels.contains x.action = true → x.order = none))
    (augmentOne pm) (fun s k hs => augmentOne_order_inv pm s k hs.1 hs.2) _ _ ⟨h1, h3⟩

theorem ftScan_order_inv (pm : ProcMetaMap) (maxHops : Nat)
    (startTime cutoff : Option Int) :
    ∀ (view : List EventIdx) (st : FTState),
      (st.edges.filterMap EdgeOut.order =
          List.range' 1
            ((st.edges.filter (fun e => !(treeLabels.contains e.action))).length) ∧
        st.seq = (st.edges.filter (fun e => !(treeLabels.contains e.action))).length + 1 ∧
        ∀ e ∈ st.edges, treeLabels.contains e.action = true → e.order = none) →
      ((ftScan pm maxHops startTime cutoff view st).edges.filterMap EdgeOut.order =
          List.range' 1
            (((ftScan pm maxHops startTime cutoff view st).edges.filter
              (fun e => !(treeLabels.contains e.action))).length) ∧
        (ftScan pm maxHops startTime cutoff view st).seq =
          (((ftScan pm maxHops startTime cutoff view st).edges.filter
            (fun e => !(treeLabels.contains e.action))).length) + 1 ∧
        ∀ e ∈ (ftScan pm maxHops startTime cutoff view st).edges,
          treeLabels.contains e.action = true → e.order = none) := by
  intro view
  induction view with
  | nil => intro st h; exact h
  | cons ev rest ih =>
      intro st h
      rw [ftScan]
      by_cases hb : beforeStart startTime ev.ts
      · simp only [hb, if_true]
        exact ih st h
      · simp only [hb, Bool.false_eq_true, if_false]
        by_cases hc : beyondCutoff cutoff ev.ts
        · simp only [hc, if_true]
          exact h
        · simp only [hc, Bool.false_eq_true, if_false]
          exact ih _ (@foldl_preserve FTState (NodeKey × NodeKey × String)
            (fun s =>
              (s.edges.filterMap EdgeOut.order =
                List.range' 1
                  ((s.edges.filter (fun e => !(treeLabels.contains e.action))).length)) ∧
              s.seq =
                (s.edges.filter (fun e => !(treeLabels.contains e.action))).length + 1 ∧
              (∀ e ∈ s.edges, treeLabels.contains e.action = true → e.order = none))
            (ftStep pm maxHops ev) (fun s x hs => ftStep_order_inv pm maxHops ev s x hs)
            _ st h)



theorem ftStepT_gen_inv (pm : ProcMetaMap) (maxHops : Nat) (i : Nat) (ev : EventIdx)
    (st : FTStateT) (t : NodeKey × NodeKey × String)
    (h1 : (st.edges.map TaggedEdge.gen).Pairwise (· ≤ ·))
    (h2 : ∀ g ∈ st.edges.map TaggedEdge.gen, g ≤ i) :
    ((ftStepT pm maxHops i ev st t).edges.map TaggedEdge.gen).Pairwise (· ≤ ·) ∧
    (∀ g ∈ (ftStepT pm maxHops i ev st t).edges.map TaggedEdge.gen, g ≤ i) := by
  obtain ⟨src, dst, label⟩ := t
  unfold ftStepT
  cases hd : alistGet st.depths src with
  | none => simp only [hd]; exact ⟨h1, h2⟩
  | some dsrc =>
      simp only [hd]
      by_cases hm : maxHops < dsrc + 1
      · simp only [hm, if_true]
        exact ⟨h1, h2⟩
      · simp only [hm, if_false]
        by_cases hk : ((src, dst, label) : EdgeKey) ∈ st.seen
        · simp only [hk, if_true]
          exact ⟨h1, h2⟩
        · simp only [hk, if_false]
          constructor
          · rw [List.map_append]
            refine (List.pairwise_append).mpr ⟨h1, List.pairwise_singleton _ _, ?_⟩
            intro a ha b hb
            rw [List.mem_singleton.mp hb]
            exact h2 a ha
          · intro g hg
            rw [List.map_append] at hg
            rcases List.mem_append.mp hg with hg1 | hg2
            · exact h2 g hg1
            · rw [List.mem_singleton.mp hg2]

theorem ftScanT_gen (pm : ProcMetaMap) (maxHops : Nat) (startTime cutoff : Option Int) :
    ∀ (view : List EventIdx) (i : Nat) (st : FTStateT),
      (st.edges.map TaggedEdge.gen).Pairwise (· ≤ ·) →
      (∀ g ∈ st.edges.map TaggedEdge.gen, g ≤ i) →
      ((ftScanT pm maxHops startTime cutoff i view st).edges.map
        TaggedEdge.gen).Pairwise (· ≤ ·) := by
  intro view
  induction view with
  | nil => intro i st h1 _; exact h1
  | cons ev rest ih =>
      intro i st h1 h2
      rw [ftScanT]
      by_cases hb : beforeStart startTime ev.ts
      · simp only [hb, if_true]
        exact ih (i + 1) st h1 (fun g hg => Nat.le_succ_of_le (h2 g hg))
      · simp only [hb, Bool.false_eq_true, if_false]
        by_cases hc : beyondCutoff cutoff ev.ts
        · simp only [hc, if_true]
          exact h1
        · simp only [hc, Bool.false_eq_true, if_false]
          have hs := @foldl_preserve FTStateT (NodeKey × NodeKey × String)
            (fun s => (s.edges.map TaggedEdge.gen).Pairwise (· ≤ ·) ∧
              ∀ g ∈ s.edges.map TaggedEdge.gen, g ≤ i)
            (ftStepT pm maxHops i ev)
            (fun s x hs => ftStepT_gen_inv pm maxHops i ev s x hs.1 hs.2)
            (edgesFromEventF ev) st ⟨h1, h2⟩
          exact ih (i + 1) _ hs.1 (fun g hg => Nat.le_succ_of_le (hs.2 g hg))

/-- C5: in every forward trace, the `order` values of the edges whose label
is not `proc_tree_down`/`proc_tree_up` are exactly `1, 2, …, k` in output
order (hence strictly increasing), tree-labelled edges carry no order, and
the generation-tagged scan shows the emitted edge sequence follows the
forward-time view positions of the generating events (non-decreasing
generation stamps, with the tagged scan projecting onto the real one). -/
theorem c5_forward_order_monotone (fi : String → Option Int) (pm : ProcMetaMap)
    (activity : List (Int × List ActEntry)) (view : List EventIdx)
    (startKey : NodeKey) (startTime : Option Int) (maxHops : Nat)
    (cutoff : Option Int) :
    ((forwardFrom fi pm activity view startKey startTime maxHops cutoff).edges.filterMap
        EdgeOut.order =
      List.range' 1
        (((forwardFrom fi pm activity view startKey startTime maxHops
            cutoff).edges.filter (fun e => !(treeLabels.contains e.action))).length)) ∧
    ((forwardFrom fi pm activity view startKey startTime maxHops cutoff).edges.filterMap
        EdgeOut.order).Pairwise (· < ·) ∧
    (∀ e ∈ (forwardFrom fi pm activity view startKey startTime maxHops cutoff).edges,
      treeLabels.contains e.action = true → e.order = none) ∧
    ((ftScanT pm maxHops startTime cutoff 0 view (initFTStateT pm startKey)).edges.map
        TaggedEdge.edge =
      (ftScan pm maxHops startTime cutoff view (initFTState pm startKey)).edges) ∧
    ((ftScanT pm maxHops startTime cutoff 0 view (initFTStateT pm startKey)).edges.map
        TaggedEdge.gen).Pairwise (· ≤ ·) := by
  have hscan := ftScan_order_inv pm maxHops startTime cutoff view (initFTState pm startKey)
    ⟨rfl, rfl, by simp [initFTState]⟩
  have haug := augmentTree_order_inv pm
    (ftScan pm maxHops startTime cutoff view (initFTState pm startKey))
    hscan.1 hscan.2.2
  refine ⟨haug.1, ?_, haug.2, ?_, ?_⟩
  · show ((augmentTree pm
        (ftScan pm maxHops startTime cutoff view (initFTState pm startKey))).edges.filterMap
          EdgeOut.order).Pairwise (· < ·)
    rw [haug.1]
    exact List.pairwise_lt_range' _ _
  · have hE := eraseT_ftScanT pm maxHops startTime cutoff view 0 (initFTStateT pm startKey)
    have hinit : eraseT (initFTStateT pm startKey) = initFTState pm startKey := rfl
    rw [hinit] at hE
    exact congrArg FTState.edges hE
  · exact ftScanT_gen pm maxHops startTime cutoff view 0 (initFTStateT pm startKey)
      (by simp [initFTStateT]) (by simp [initFTStateT])

/-! ## Backward edge-aggregation lemmas (C3) -/


theorem alistGet_bumpEdge_self (em : EdgeMap) (k : EdgeKey) (ts : Option String) :
    alistGet (bumpEdge em k ts) k =
      some (match alistGet em k with
        | some i => { i with count := i.count + 1 }
        | none => { src := k.1, dst := k.2.1, action := k.2.2, timestamp := ts,
                    count := 1 }) := by
  unfold bumpEdge
  cases h : alistGet em k <;> simp [h, alistGet_alistSet_self]

theorem alistGet_bumpEdge_ne (em : EdgeMap) (k : EdgeKey) (ts : Option String)
    (a : EdgeKey) (h : a ≠ k) :
    alistGet (bumpEdge em k ts) a = alistGet em a := by
  unfold bumpEdge
  cases h2 : alistGet em k <;> simp [h2, alistGet_alistSet_ne _ _ _ _ h]

theorem nodup_keys_bumpEdge (em : EdgeMap) (k : EdgeKey) (ts : Option String)
    (h : (em.map Prod.fst).Nodup) : ((bumpEdge em k ts).map Prod.fst).Nodup := by
  unfold bumpEdge
  cases h2 : alistGet em k <;> exact nodup_keys_alistSet _ _ _ h

theorem nodup_keys_bumpFold (cs : List Contribution) (em : EdgeMap)
    (h : (em.map Prod.fst).Nodup) : ((bumpFold em cs).map Prod.fst).Nodup := by
  induction cs generalizing em with
  | nil => exact h
  | cons c rest ih => exact ih _ (nodup_keys_bumpEdge em c.key c.ts h)

theorem bumpFold_get (cs : List Contribution) (em : EdgeMap) (k : EdgeKey) :
    alistGet (bumpFold em cs) k =
      match alistGet em k with
      | some i =>
          some { i with count := i.count + (cs.filter (fun c => decide (c.key = k))).length }
      | none =>
          match cs.find? (fun c => decide (c.key = k)) with
          | some c0 =>
              some { src := k.1, dst := k.2.1, action := k.2.2, timestamp := c0.ts,
                     count := (cs.filter (fun c => decide (c.key = k))).length }
          | none => none := by
  induction cs generalizing em with
  | nil =>
      cases h : alistGet em k with
      | none => simp [bumpFold, h]
      | some i => simp [bumpFold, h]
  | cons c rest ih =>
      have hfold : bumpFold em (c :: rest) = bumpFold (bumpEdge em c.key c.ts) rest := rfl
      rw [hfold, ih]
      by_cases hck : c.key = k
      · subst hck
        rw [alistGet_bumpEdge_self]
        cases h : alistGet em c.key with
        | some i =>
            simp only [h, List.filter_cons, decide_eq_true_eq, if_pos rfl,
              List.length_cons]
            simp [Nat.add_comm, Nat.add_assoc, Nat.add_left_comm]
        | none =>
            simp only [h, List.filter_cons, List.find?_cons, decide_eq_true_eq,
              if_pos rfl, List.length_cons]
            have hd : (decide (c.key = c.key)) = true := by simp
            simp [hd, Nat.add_comm]
      · rw [alistGet_bumpEdge_ne _ _ _ _ (Ne.symm hck)]
        cases h : alistGet em k with
        | some i =>
            simp only [h, List.filter_cons]
            simp [hck]
        | none =>
            simp only [h, List.filter_cons, List.find?_cons]
            simp [hck]

theorem bumpFold_append_one (em : EdgeMap) (cs : List Contribution) (c : Contribution) :
    bumpFold em (cs ++ [c]) = bumpEdge (bumpFold em cs) c.key c.ts := by
  simp [bumpFold, List.foldl_append]

theorem btApply1_edgeMap (ev : EventIdx) (st : BTState) (t : NodeKey × NodeKey × String) :
    (btApply1 ev st t).edgeMap = bumpEdge st.edgeMap (t.1, t.2.1, t.2.2) ev.rawTs := by
  obtain ⟨src, dst, label⟩ := t
  unfold btApply1
  by_cases h : src ∈ st.interesting <;> simp [h]

theorem btContribs1_inner_fst (maxHops : Nat) (ev : EventIdx)
    (l : List (NodeKey × NodeKey × String)) (q : BTState × List Contribution) :
    (l.foldl (fun q t =>
        (btStep1 maxHops ev q.1 t,
         q.2 ++ (if btGuard1 maxHops q.1 t
                 then [{ key := (t.1, t.2.1, t.2.2), ts := ev.rawTs }]
                 else []))) q).1 =
      l.foldl (btStep1 maxHops ev) q.1 := by
  induction l generalizing q with
  | nil => rfl
  | cons t ts ih => rw [List.foldl_cons, List.foldl_cons, ih]

theorem btContribs1_inner_em (maxHops : Nat) (ev : EventIdx)
    (l : List (NodeKey × NodeKey × String)) (q : BTState × List Contribution)
    (h : q.1.edgeMap = bumpFold [] q.2) :
    ((l.foldl (fun q t =>
        (btStep1 maxHops ev q.1 t,
         q.2 ++ (if btGuard1 maxHops q.1 t
                 then [{ key := (t.1, t.2.1, t.2.2), ts := ev.rawTs }]
                 else []))) q).1).edgeMap =
      bumpFold []
        ((l.foldl (fun q t =>
          (btStep1 maxHops ev q.1 t,
           q.2 ++ (if btGuard1 maxHops q.1 t
                   then [{ key := (t.1, t.2.1, t.2.2), ts := ev.rawTs }]
                   else []))) q).2) := by
  induction l generalizing q with
  | nil => exact h
  | cons t ts ih =>
      rw [List.foldl_cons]
      refine ih _ ?_
      by_cases hg : btGuard1 maxHops q.1 t
      · simp only [hg, if_true]
        unfold btStep1
        rw [if_pos hg, btApply1_edgeMap, bumpFold_append_one, h]
      · simp only [hg, Bool.false_eq_true, if_false, List.append_nil]
        unfold btStep1
        rw [if_neg hg]
        exact h

theorem btContribs1_fst (maxHops : Nat) (view : List EventIdx) :
    ∀ (p : BTState × List Contribution),
      (view.foldl
        (fun p ev =>
          (edgesFromEventB ev).foldl
            (fun q t =>
              (btStep1 maxHops ev q.1 t,
               q.2 ++ (if btGuard1 maxHops q.1 t
                       then [{ key := (t.1, t.2.1, t.2.2), ts := ev.rawTs }]
                       else [])))
            p) p).1 = btPhase1 maxHops view p.1 := by
  induction view with
  | nil => intro p; rfl
  | cons ev rest ih =>
      intro p
      rw [List.foldl_cons, ih]
      unfold btPhase1
      rw [List.foldl_cons]
      congr 1
      rw [btContribs1_inner_fst]
      rfl

theorem btContribs1_em (maxHops : Nat) (view : List EventIdx) :
    ∀ (p : BTState × List Contribution),
      p.1.edgeMap = bumpFold [] p.2 →
      ((view.foldl
        (fun p ev =>
          (edgesFromEventB ev).foldl
            (fun q t =>
              (btStep1 maxHops ev q.1 t,
               q.2 ++ (if btGuard1 maxHops q.1 t
                       then [{ key := (t.1, t.2.1, t.2.2), ts := ev.rawTs }]
                       else [])))
            p) p).1).edgeMap =
        bumpFold []
          ((view.foldl
            (fun p ev =>
              (edgesFromEventB ev).foldl
                (fun q t =>
                  (btStep1 maxHops ev q.1 t,
                   q.2 ++ (if btGuard1 maxHops q.1 t
                           then [{ key := (t.1, t.2.1, t.2.2), ts := ev.rawTs }]
                           else [])))
                p) p).2) := by
  induction view with
  | nil => intro p h; exact h
  | cons ev rest ih =>
      intro p h
      rw [List.foldl_cons]
      exact ih _ (btContribs1_inner_em maxHops ev _ p h)

theorem btContribs2_fst (susp : List Int) (view : List EventIdx) :
    ∀ (p : BTState × List Contribution),
      (btContribs2 susp view p).1 = view.foldl (btStep2 susp) p.1 := by
  unfold btContribs2
  induction view with
  | nil => intro p; rfl
  | cons ev rest ih =>
      intro p
      rw [List.foldl_cons, List.foldl_cons, ih]

theorem btContribs2_em (susp : List Int) (view : List EventIdx) :
    ∀ (p : BTState × List Contribution),
      p.1.edgeMap = bumpFold [] p.2 →
      ((btContribs2 susp view p).1).edgeMap = bumpFold [] ((btContribs2 susp view p).2) := by
  unfold btContribs2
  induction view with
  | nil => intro p h; exact h
  | cons ev rest ih =>
      intro p h
      rw [List.foldl_cons]
      refine ih _ ?_
      cases hemit : btEmit2 susp ev with
      | none =>
          simp only [hemit, List.append_nil]
          unfold btStep2
          rw [hemit]
          exact h
      | some e =>
          simp only [hemit]
          unfold btStep2
          rw [hemit]
          obtain ⟨target, k⟩ := e
          rw [bumpFold_append_one, h]

theorem backtrackState_edgeMap (view : List EventIdx) (startKey : NodeKey)
    (maxHops : Nat) :
    (backtrackState view startKey maxHops).edgeMap =
      bumpFold [] (backtrackContribs view startKey maxHops) := by
  have hfst : (btContribs1 maxHops view (initBTState startKey)).1 =
      btPhase1 maxHops view (initBTState startKey) :=
    btContribs1_fst maxHops view (initBTState startKey, [])
  have hem : (btContribs1 maxHops view (initBTState startKey)).1.edgeMap =
      bumpFold [] (btContribs1 maxHops view (initBTState startKey)).2 :=
    btContribs1_em maxHops view (initBTState startKey, []) rfl
  have h2fst := btContribs2_fst
    (suspiciousPids (btContribs1 maxHops view (initBTState startKey)).1.nodesMeta) view
    (btContribs1 maxHops view (initBTState startKey))
  have h2em := btContribs2_em
    (suspiciousPids (btContribs1 maxHops view (initBTState startKey)).1.nodesMeta) view
    (btContribs1 maxHops view (initBTState startKey)) hem
  unfold backtrackState backtrackContribs btPhase2
  rw [← hfst, ← h2fst]
  exact h2em

/-- C3 (amended): in every backward trace the `edge_map` keys
`(src, dst, label)` are pairwise distinct, the output edges are exactly the
decorated `edge_map` entries (so no two output edges share the same
`(src, dst, label-without-count)` triple), and each entry's count equals
the number of *contributions* merged under that key — the phase-1 matches
plus the egress-enrichment matches, where one event matched by both passes
counts twice — with the timestamp captured at the first contribution. -/
theorem c3_backward_edge_aggregation (view : List EventIdx) (startKey : NodeKey) (maxHops : Nat) :
    (((backtrackState view startKey maxHops).edgeMap.map Prod.fst).Nodup) ∧
    ((backtrackFrom view startKey maxHops).edges =
      (backtrackState view startKey maxHops).edgeMap.map (fun p => decorateEdge p.2)) ∧
    (∀ (k : EdgeKey) (i : EdgeInfo),
      (k, i) ∈ (backtrackState view startKey maxHops).edgeMap →
      i.src = k.1 ∧ i.dst = k.2.1 ∧ i.action = k.2.2 ∧
      i.count = ((backtrackContribs view startKey maxHops).filter
        (fun c => decide (c.key = k))).length ∧
      0 < i.count ∧
      ((backtrackContribs view startKey maxHops).find?
        (fun c => decide (c.key = k))).map Contribution.ts = some i.timestamp) := by
  have hEm := backtrackState_edgeMap view startKey maxHops
  have hnd : ((backtrackState view startKey maxHops).edgeMap.map Prod.fst).Nodup := by
    rw [hEm]
    exact nodup_keys_bumpFold _ _ (by simp)
  refine ⟨hnd, rfl, ?_⟩
  intro k i hmem
  have hget : alistGet (backtrackState view startKey maxHops).edgeMap k = some i :=
    alistGet_eq_of_mem_nodup hnd hmem
  rw [hEm, bumpFold_get] at hget
  have hnil : alistGet ([] : EdgeMap) k = none := rfl
  rw [hnil] at hget
  cases hfind : (backtrackContribs view startKey maxHops).find?
      (fun c => decide (c.key = k)) with
  | none =>
      rw [hfind] at hget
      cases hget
  | some c0 =>
      rw [hfind] at hget
      have hi := Option.some.inj hget
      have hpred := List.find?_some hfind
      have hmem0 := List.mem_of_find?_eq_some hfind
      have hfmem : c0 ∈ (backtrackContribs view startKey maxHops).filter
          (fun c => decide (c.key = k)) := List.mem_filter.mpr ⟨hmem0, hpred⟩
      refine ⟨by rw [← hi], by rw [← hi], by rw [← hi], by rw [← hi], ?_, ?_⟩
      · rw [← hi]
        exact List.length_pos.mpr (List.ne_nil_of_mem hfmem)
      · rw [← hi]
        rfl


/-! ## Backward noise-key lemmas (C2) -/


theorem rstripSlash_head (c : Char) (rest : List Char) (hc : (c == '/') = false) :
    ∃ t, (rstripSlash ⟨c :: rest⟩).data = c :: t := by
  unfold rstripSlash
  simp only [List.reverse_cons]
  rw [List.dropWhile_append]
  rcases h : rest.reverse.dropWhile (fun x => x == '/') with _ | ⟨y, ys⟩
  · simp only [List.isEmpty_nil, if_true]
    rw [List.dropWhile_cons_of_neg (by simp [hc])]
    exact ⟨[], by simp⟩
  · simp only [List.isEmpty_cons, if_false]
    exact ⟨(y :: ys).reverse, by simp⟩

theorem digit_ne_slash (c : Char) (hc : c.isDigit = true) : (c == '/') = false := by
  by_cases h : c = '/'
  · subst h
    cases hc
  · simpa using h

theorem head_ne_slash_not_contains (x : String) (l : List String) (c : Char)
    (hx : x.data.head? = some c) (hl : ∀ y ∈ l, y.data.head? = some '/')
    (hc : (c == '/') = false) : l.contains x = false := by
  rw [Bool.eq_false_iff]
  intro hcon
  have hmem : x ∈ l := List.elem_iff.mp hcon
  have hh := hl x hmem
  rw [hx] at hh
  have hce : c = '/' := Option.some.inj hh
  rw [hce] at hc
  simp at hc

theorem startsWith_slash_false (s p : String) (c : Char) (t : List Char)
    (hs : s.data = c :: t) (hp : p.data.head? = some '/') (hc : (c == '/') = false) :
    pyStartsWith s p = false := by
  cases hd : p.data with
  | nil => rw [hd] at hp; cases hp
  | cons q qs =>
      rw [hd] at hp
      have hq : q = '/' := Option.some.inj hp
      unfold pyStartsWith startsWithChars
      rw [hd, hs]
      subst hq
      have h2 : ('/' == c) = false := by
        have hne : c ≠ '/' := by simpa using hc
        simpa using fun hh : '/' = c => hne hh.symm
      simp [h2]

theorem isDigitStr_not_noise (s : String) (h : isDigitStr s = true) :
    is_noise_file s = false := by
  obtain ⟨data⟩ := s
  rcases hdata : data with _ | ⟨c, rest⟩
  · rw [hdata] at h
    simp [isDigitStr] at h
  · subst hdata
    have hparts := (Bool.and_eq_true _ _).mp h
    have hall := (List.all_eq_true).mp hparts.2
    have hcdig : c.isDigit = true := by simpa using hall c (List.mem_cons_self c rest)
    have hslash := digit_ne_slash c hcdig
    have hne : ((⟨c :: rest⟩ : String) == "") = false := by
      have : (⟨c :: rest⟩ : String) ≠ "" := by
        intro hh
        have := congrArg String.data hh
        simp at this
      simpa using this
    obtain ⟨t, ht⟩ := rstripSlash_head c rest hslash
    have hexact : IGNORED_EXACT_PATHS.contains (rstripSlash ⟨c :: rest⟩) = false := by
      refine head_ne_slash_not_contains _ _ c ?_ (by decide) hslash
      rw [ht]
      rfl
    have hbin : IGNORED_BINARIES.contains (⟨c :: rest⟩ : String) = false := by
      refine head_ne_slash_not_contains _ _ c rfl (by decide) hslash
    have hpref : IGNORED_PREFIXES.any
        (fun p => pyStartsWith (⟨c :: rest⟩ : String) p) = false := by
      rw [List.any_eq_false]
      intro p hp
      have hph : p.data.head? = some '/' := by
        revert hp
        revert p
        decide
      rw [startsWith_slash_false (⟨c :: rest⟩ : String) p c rest rfl hph hslash]
      simp
    unfold is_noise_file
    rw [hne, hexact, hbin, hpref]
    simp



theorem mem_keys_recordB (store : NodeStore) (key : NodeKey) (ev : Option EventIdx)
    (a : NodeKey) (h : a ∈ (recordNodeAttrsB store key ev).map Prod.fst) :
    a ∈ store.map Prod.fst ∨ a = key := by
  unfold recordNodeAttrsB at h
  exact (mem_keys_alistSet _ _ _ _).mp h

theorem btGuard1_noise (maxHops : Nat) (st : BTState) (t : NodeKey × NodeKey × String)
    (h : btGuard1 maxHops st t = true) :
    noiseFileKey t.1 = false ∧ noiseSockKey t.1 = false ∧
    noiseFileKey t.2.1 = false ∧ noiseSockKey t.2.1 = false := by
  obtain ⟨src, dst, label⟩ := t
  unfold btGuard1 at h
  simp only [Bool.and_eq_true, Bool.not_eq_true'] at h
  exact ⟨h.1.1.1.1.2, h.1.1.1.2, h.1.1.2, h.1.2⟩

theorem btApply1_nodesMeta (ev : EventIdx) (st : BTState)
    (t : NodeKey × NodeKey × String) :
    (btApply1 ev st t).nodesMeta =
      recordNodeAttrsB (recordNodeAttrsB st.nodesMeta t.2.1 (some ev)) t.1 (some ev) := by
  obtain ⟨src, dst, label⟩ := t
  unfold btApply1
  by_cases h : src ∈ st.interesting <;> simp [h]

theorem btStep1_keys_inv (startKey : NodeKey) (maxHops : Nat) (ev : EventIdx)
    (st : BTState) (t : NodeKey × NodeKey × String)
    (hP : ∀ a ∈ st.nodesMeta.map Prod.fst,
      a = startKey ∨ (noiseFileKey a = false ∧ noiseSockKey a = false)) :
    ∀ a ∈ (btStep1 maxHops ev st t).nodesMeta.map Prod.fst,
      a = startKey ∨ (noiseFileKey a = false ∧ noiseSockKey a = false) := by
  unfold btStep1
  by_cases hg : btGuard1 maxHops st t
  · simp only [hg, if_true]
    intro a ha
    rw [btApply1_nodesMeta] at ha
    rcases mem_keys_recordB _ _ _ _ ha with ha2 | rfl
    · rcases mem_keys_recordB _ _ _ _ ha2 with ha3 | rfl
      · exact hP a ha3
      · exact Or.inr ⟨(btGuard1_noise _ _ _ hg).2.2.1, (btGuard1_noise _ _ _ hg).2.2.2⟩
    · exact Or.inr ⟨(btGuard1_noise _ _ _ hg).1, (btGuard1_noise _ _ _ hg).2.1⟩
  · simp only [hg, Bool.false_eq_true, if_false]
    exact hP

theorem btPhase1_keys_inv (startKey : NodeKey) (maxHops : Nat) (view : List EventIdx)
    (st : BTState)
    (hP : ∀ a ∈ st.nodesMeta.map Prod.fst,
      a = startKey ∨ (noiseFileKey a = false ∧ noiseSockKey a = false)) :
    ∀ a ∈ (btPhase1 maxHops view st).nodesMeta.map Prod.fst,
      a = startKey ∨ (noiseFileKey a = false ∧ noiseSockKey a = false) := by
  unfold btPhase1
  refine @foldl_preserve BTState EventIdx
    (fun s => ∀ a ∈ s.nodesMeta.map Prod.fst,
      a = startKey ∨ (noiseFileKey a = false ∧ noiseSockKey a = false))
    (btEventStep1 maxHops) ?_ view st hP
  intro s ev hs
  unfold btEventStep1
  exact @foldl_preserve BTState (NodeKey × NodeKey × String)
    (fun s => ∀ a ∈ s.nodesMeta.map Prod.fst,
      a = startKey ∨ (noiseFileKey a = false ∧ noiseSockKey a = false))
    (btStep1 maxHops ev) (fun s2 t hs2 => btStep1_keys_inv startKey maxHops ev s2 t hs2)
    (edgesFromEventB ev) s hs

theorem socketKey_shape (ev : EventIdx) (k : NodeKey) (h : socketKey ev = some k) :
    ∃ a, k = NodeKey.sock a := by
  unfold socketKey at h
  by_cases h1 : truthyS (ev.socket.getD {}).dst_ip && truthyI (ev.socket.getD {}).dst_port
  · rw [if_pos h1] at h
    exact ⟨_, (Option.some.inj h).symm⟩
  · rw [if_neg h1] at h
    by_cases h2 : truthyS (ev.socket.getD {}).src_ip && truthyI (ev.socket.getD {}).src_port
    · rw [if_pos h2] at h
      exact ⟨_, (Option.some.inj h).symm⟩
    · rw [if_neg h2] at h
      cases h

theorem fileKey_shape (ev : EventIdx) (k : NodeKey) (h : fileKey ev = some k) :
    (truthyS ev.inode = true ∧ k = NodeKey.file (ev.inode.getD "")) ∨
    (truthyS ev.inode = false ∧ truthyS ev.file_path = true ∧
      k = NodeKey.file (ev.file_path.getD "")) := by
  unfold fileKey at h
  by_cases h1 : truthyS ev.inode
  · rw [if_pos h1] at h
    exact Or.inl ⟨h1, (Option.some.inj h).symm⟩
  · rw [if_neg h1] at h
    by_cases h2 : truthyS ev.file_path
    · rw [if_pos h2] at h
      exact Or.inr ⟨by simpa using h1, h2, (Option.some.inj h).symm⟩
    · rw [if_neg h2] at h
      cases h



theorem btEmit2_target_ok (susp : List Int) (ev : EventIdx) (target : NodeKey)
    (k : EdgeKey)
    (hino : truthyS ev.inode = true → isDigitStr (ev.inode.getD "") = true)
    (h : btEmit2 susp ev = some (target, k)) :
    noiseFileKey target = false ∧ noiseSockKey target = false := by
  unfold btEmit2 at h
  cases hp : ev.pid with
  | none => rw [hp] at h; simp at h
  | some p =>
      rw [hp] at h
      by_cases hin : susp.contains p = true
      · simp only [hin, if_true] at h
        by_cases hA : ev.edge_dir = some "process->socket" ∨ ev.action = some "connect"
        · simp only [hA, if_true] at h
          cases hsk : socketKey ev with
          | none => rw [hsk] at h; cases h
          | some sk =>
              rw [hsk] at h
              obtain ⟨a, rfl⟩ := socketKey_shape ev sk hsk
              by_cases hns : is_noise_socket a = true
              · simp only [hns, if_true] at h
                cases h
              · simp only [hns, if_false] at h
                have := Option.some.inj h
                have htar : target = NodeKey.sock a := congrArg Prod.fst this.symm
                subst htar
                exact ⟨rfl, by simpa using hns⟩
        · simp only [hA, if_false] at h
          by_cases hB : ev.edge_dir = some "process->file"
          · simp only [hB, if_true] at h
            cases hfk : fileKey ev with
            | none => rw [hfk] at h; cases h
            | some fk =>
                rw [hfk] at h
                by_cases hnf : (truthyS ev.file_path &&
                    is_noise_file (ev.file_path.getD "")) = true
                · simp only [hnf, if_true] at h
                  cases h
                · simp only [hnf, if_false] at h
                  have hpair := Option.some.inj h
                  have ht1 : fk = target := congrArg Prod.fst hpair
                  rw [← ht1]
                  rcases fileKey_shape ev fk hfk with ⟨hi, hkey⟩ | ⟨hi, hfp, hkey⟩
                  · rw [hkey]
                    refine ⟨?_, rfl⟩
                    show is_noise_file (ev.inode.getD "") = false
                    exact isDigitStr_not_noise _ (hino hi)
                  · rw [hkey]
                    refine ⟨?_, rfl⟩
                    show is_noise_file (ev.file_path.getD "") = false
                    rcases Bool.and_eq_false_iff.mp (by simpa using hnf) with hx | hx
                    · rw [hfp] at hx; cases hx
                    · exact hx
          · simp only [hB, if_false] at h
            cases h
      · have hnotmem : p ∉ susp := by simpa using hin
        simp [hnotmem] at h

theorem btStep2_keys_inv (startKey : NodeKey) (susp : List Int) (st : BTState)
    (ev : EventIdx)
    (hino : truthyS ev.inode = true → isDigitStr (ev.inode.getD "") = true)
    (hP : ∀ a ∈ st.nodesMeta.map Prod.fst,
      a = startKey ∨ (noiseFileKey a = false ∧ noiseSockKey a = false)) :
    ∀ a ∈ (btStep2 susp st ev).nodesMeta.map Prod.fst,
      a = startKey ∨ (noiseFileKey a = false ∧ noiseSockKey a = false) := by
  unfold btStep2
  cases hemit : btEmit2 susp ev with
  | none => simp only [hemit]; exact hP
  | some e =>
      simp only [hemit]
      obtain ⟨target, k⟩ := e
      intro a ha
      have ha2 : a ∈ (recordNodeAttrsB st.nodesMeta target (some ev)).map Prod.fst := ha
      rcases mem_keys_recordB _ _ _ _ ha2 with ha3 | rfl
      · exact hP a ha3
      · exact Or.inr (btEmit2_target_ok susp ev a k hino hemit)

theorem btPhase2_fold_keys_inv (startKey : NodeKey) (susp : List Int) :
    ∀ (view : List EventIdx),
      (∀ ev ∈ view, truthyS ev.inode = true → isDigitStr (ev.inode.getD "") = true) →
      ∀ (st : BTState),
        (∀ a ∈ st.nodesMeta.map Prod.fst,
          a = startKey ∨ (noiseFileKey a = false ∧ noiseSockKey a = false)) →
        ∀ a ∈ (view.foldl (btStep2 susp) st).nodesMeta.map Prod.fst,
          a = startKey ∨ (noiseFileKey a = false ∧ noiseSockKey a = false) := by
  intro view
  induction view with
  | nil => intro _ st hP; exact hP
  | cons ev rest ih =>
      intro hino st hP
      rw [List.foldl_cons]
      exact ih (fun e he => hino e (List.mem_cons_of_mem ev he)) _
        (btStep2_keys_inv startKey susp st ev (hino ev (List.mem_cons_self ev rest)) hP)

/-- C2 (amended): in every backward trace, provided every event's inode
(when present and non-empty) is a digit string, each node key other than
the start key fails the relevant noise predicate — so a file node keyed by
a noise path or a sock node keyed by a noise address can only be the start
node; in particular an event whose `file_path` is `/usr/lib/x.so` and that
carries no inode contributes no file node.  (The forward tracer applies no
noise filter at all, and an inode-keyed backward node may still carry a
noise path as its `path` attribute: see the counterexample.) -/
theorem c2_backward_noise_keys_amended (view : List EventIdx) (startKey : NodeKey) (maxHops : Nat)
    (hino : ∀ ev ∈ view, truthyS ev.inode = true → isDigitStr (ev.inode.getD "") = true) :
    (∀ a ∈ (backtrackState view startKey maxHops).nodesMeta.map Prod.fst,
      a = startKey ∨ (noiseFileKey a = false ∧ noiseSockKey a = false)) ∧
    (∀ p : String, is_noise_file p = true →
      NodeKey.file p ∈ (backtrackState view startKey maxHops).nodesMeta.map Prod.fst →
      NodeKey.file p = startKey) ∧
    (∀ a : String, is_noise_socket a = true →
      NodeKey.sock a ∈ (backtrackState view startKey maxHops).nodesMeta.map Prod.fst →
      NodeKey.sock a = startKey) := by
  have base : ∀ a ∈ (initBTState startKey).nodesMeta.map Prod.fst,
      a = startKey ∨ (noiseFileKey a = false ∧ noiseSockKey a = false) := by
    intro a ha
    have ha0 : a ∈ (recordNodeAttrsB [] startKey none).map Prod.fst := ha
    rcases mem_keys_recordB _ _ _ _ ha0 with ha2 | rfl
    · cases ha2
    · exact Or.inl rfl
  have h1 := btPhase1_keys_inv startKey maxHops view _ base
  have hmain : ∀ a ∈ (backtrackState view startKey maxHops).nodesMeta.map Prod.fst,
      a = startKey ∨ (noiseFileKey a = false ∧ noiseSockKey a = false) := by
    unfold backtrackState btPhase2
    exact btPhase2_fold_keys_inv startKey _ view hino _ h1
  refine ⟨hmain, ?_, ?_⟩
  · intro p hp hmem
    rcases hmain _ hmem with he | ⟨hf, _⟩
    · exact he
    · rw [show noiseFileKey (NodeKey.file p) = is_noise_file p from rfl, hp] at hf
      cases hf
  · intro a ha hmem
    rcases hmain _ hmem with he | ⟨_, hs⟩
    · exact he
    · rw [show noiseSockKey (NodeKey.sock a) = is_noise_socket a from rfl, ha] at hs
      cases hs


/-- Witness for the amended C2 on a concrete backward run whose single
event carries the digit inode `"99"`. -/
theorem c2_backward_noise_keys_amended_witness :
    NodeKey.file "99" = NodeKey.proc 300 ∨
      (noiseFileKey (NodeKey.file "99") = false ∧
       noiseSockKey (NodeKey.file "99") = false) :=
  (c2_backward_noise_keys_amended (backwardView exampleFi [c2BwdEvent])
    (NodeKey.proc 300) 5 (by decide)).1 (NodeKey.file "99") (by decide)

/-- C6: both tracker views are permutations of the indexed input; the
backward view is sorted by timestamp descending and the forward view
ascending (missing timestamps being the `⊤`/`⊥` sentinels), with ties
resolved by input position (`eid`); consequently in both views every event
lacking a parseable timestamp precedes every event that has one. -/
theorem c6_event_views_sorted (fi : String → Option Int) (events : List RawEvent) :
    List.Perm (backwardView fi events) (indexEvents fi events) ∧
    List.Perm (forwardView fi events) (indexEvents fi events) ∧
    (backwardView fi events).Pairwise (fun a b =>
      sortKeyB b < sortKeyB a ∨ (sortKeyB a = sortKeyB b ∧ a.eid < b.eid)) ∧
    (forwardView fi events).Pairwise (fun a b =>
      sortKeyF a < sortKeyF b ∨ (sortKeyF a = sortKeyF b ∧ a.eid < b.eid)) ∧
    (backwardView fi events).Pairwise (fun a b => b.ts = none → a.ts = none) ∧
    (forwardView fi events).Pairwise (fun a b => b.ts = none → a.ts = none) := by
  have hpos := pairwise_eid_indexEvents fi events
  have hb := stableSort_pairwise (fun a b => decide (sortKeyB b < sortKeyB a))
    EventIdx.eid
    (fun a b d hab hbd => by
      simp only [decide_eq_true_eq] at hab hbd ⊢
      exact lt_trans hbd hab)
    (fun a b d hab hbd => by
      simp only [decide_eq_false_iff_not, not_lt] at hab hbd ⊢
      exact le_trans hab hbd)
    (indexEvents fi events) hpos
  have hf := stableSort_pairwise (fun a b => decide (sortKeyF a < sortKeyF b))
    EventIdx.eid
    (fun a b d hab hbd => by
      simp only [decide_eq_true_eq] at hab hbd ⊢
      exact lt_trans hab hbd)
    (fun a b d hab hbd => by
      simp only [decide_eq_false_iff_not, not_lt] at hab hbd ⊢
      exact le_trans hbd hab)
    (indexEvents fi events) hpos
  have hbNice : (backwardView fi events).Pairwise (fun a b =>
      sortKeyB b < sortKeyB a ∨ (sortKeyB a = sortKeyB b ∧ a.eid < b.eid)) := by
    refine hb.imp ?_
    intro a b h
    rcases h with h1 | ⟨h1, h2, h3⟩
    · exact Or.inl (of_decide_eq_true h1)
    · simp only [decide_eq_false_iff_not, not_lt] at h1 h2
      exact Or.inr ⟨le_antisymm h1 h2, h3⟩
  have hfNice : (forwardView fi events).Pairwise (fun a b =>
      sortKeyF a < sortKeyF b ∨ (sortKeyF a = sortKeyF b ∧ a.eid < b.eid)) := by
    refine hf.imp ?_
    intro a b h
    rcases h with h1 | ⟨h1, h2, h3⟩
    · exact Or.inl (of_decide_eq_true h1)
    · simp only [decide_eq_false_iff_not, not_lt] at h1 h2
      exact Or.inr ⟨le_antisymm h2 h1, h3⟩
  refine ⟨stableSort_perm _ _, stableSort_perm _ _, hbNice, hfNice, ?_, ?_⟩
  · refine hbNice.imp ?_
    intro a b h hbts
    have htop : sortKeyB b = ⊤ := (sortKeyB_eq_top_iff b).mpr hbts
    rcases h with h1 | ⟨h1, _⟩
    · rw [htop] at h1
      exact absurd h1 not_top_lt
    · exact (sortKeyB_eq_top_iff a).mp (h1.trans htop)
  · refine hfNice.imp ?_
    intro a b h hbts
    have hbot : sortKeyF b = ⊥ := (sortKeyF_eq_bot_iff b).mpr hbts
    rcases h with h1 | ⟨h1, _⟩
    · rw [hbot] at h1
      exact absurd h1 (not_lt_bot)
    · exact (sortKeyF_eq_bot_iff a).mp (h1.trans hbot)

/-- C7: `detect_suspicious_events` emits a detection for position `i` iff
the pool intersects the event's tags, and that detection is exactly
`{index := i, matched_tags := sorted(intersection), event}` —
characterized as a membership iff. -/
theorem c7_detection_characterization (events : List RawEvent) (pool : List String)
    (hpool : pool ≠ []) (d : Detection) :
    d ∈ detect_suspicious_events events pool ↔
      (events[d.index]? = some d.event ∧
       tagPoolMatch pool (some d.event.tags) ≠ [] ∧
       d.matched_tags = sortedTagSet (tagPoolMatch pool (some d.event.tags))) := by
  unfold detect_suspicious_events
  rw [List.mem_filterMap]
  constructor
  · rintro ⟨p, hp, hsome⟩
    by_cases hm : (tagPoolMatch pool (some p.2.tags)).isEmpty
    · simp [hm] at hsome
    · simp only [hm, if_false] at hsome
      have hd := Option.some.inj hsome
      have hget := List.mem_enum_iff_getElem?.mp hp
      rw [← hd]
      refine ⟨by simpa using hget, ?_, rfl⟩
      simpa [List.isEmpty_iff] using hm
  · rintro ⟨hget, hne, htags⟩
    refine ⟨(d.index, d.event), List.mem_enum_iff_getElem?.mpr (by simpa using hget), ?_⟩
    have hm : (tagPoolMatch pool (some d.event.tags)).isEmpty = false := by
      simpa [List.isEmpty_iff] using hne
    simp only [hm, if_false]
    cases d
    simp_all

/-- Witness for C7: a concrete event whose tags meet the pool is detected
with the sorted matched set. -/
theorem c7_detection_characterization_witness :
    ((["evil"] : List String) ≠ []) ∧
    (⟨0, ["evil"], { tags := ["evil", "seen"] }⟩ : Detection) ∈
      detect_suspicious_events [{ tags := ["evil", "seen"] }] ["evil"] :=
  ⟨by decide,
   (c7_detection_characterization [{ tags := ["evil", "seen"] }] ["evil"] (by decide)
      ⟨0, ["evil"], { tags := ["evil", "seen"] }⟩).mpr
     ⟨by decide, by decide, by decide⟩⟩

/-- C8: node-attribute accumulation under node identity, for both tracers:
records with the same (truthy) inode resolve to the same file key; both
tracers' `_record_node_attrs` store exactly `recordFileAttrs` of the
currently stored attributes on a file key; an observation carrying an
inode overwrites the `inode` attribute; an already-set `path` is never
changed; and on a node whose path is unset (inode-keyed), the first
observation supplying a `file_path` sets it. -/
theorem c8_node_attr_accumulation :
    (∀ (e1 e2 : EventIdx), truthyS e1.inode = true → e1.inode = e2.inode →
      fileKey e1 = some (NodeKey.file (e1.inode.getD "")) ∧ fileKey e1 = fileKey e2) ∧
    (∀ (store : NodeStore) (s : String) (ev : EventIdx),
      alistGet (recordNodeAttrsB store (.file s) (some ev)) (.file s) =
        some (recordFileAttrs ((alistGet store (.file s)).getD { type := "file" }) s
          (some ev))) ∧
    (∀ (pm : ProcMetaMap) (store : NodeStore) (s : String) (ev : EventIdx),
      alistGet (recordNodeAttrsF pm store (.file s) (some ev)) (.file s) =
        some (recordFileAttrs ((alistGet store (.file s)).getD { type := "file" }) s
          (some ev))) ∧
    (∀ (node : NodeAttrs) (s : String) (ev : EventIdx), truthyS ev.inode = true →
      (recordFileAttrs node s (some ev)).inode = ev.inode) ∧
    (∀ (node : NodeAttrs) (s : String) (ev : EventIdx) (p : String), node.path = some p →
      (recordFileAttrs node s (some ev)).path = some p) ∧
    (∀ (node : NodeAttrs) (s : String) (ev : EventIdx), node.path = none →
      isDigitStr s = true → truthyS ev.file_path = true →
      (recordFileAttrs node s (some ev)).path = ev.file_path) := by
  refine ⟨?_, ?_, ?_, ?_, ?_, ?_⟩
  · intro e1 e2 h1 h12
    constructor
    · simp [fileKey, h1]
    · simp [fileKey, h1, ← h12]
  · intro store s ev
    simp [recordNodeAttrsB, nodeTypeOf, alistGet_alistSet_self]
  · intro pm store s ev
    simp [recordNodeAttrsF, nodeTypeOf, alistGet_alistSet_self]
  · intro node s ev h
    by_cases hd : isDigitStr s <;> by_cases hf : truthyS ev.file_path <;>
      simp [recordFileAttrs, h, hd, hf]
  · intro node s ev p hp
    by_cases hd : isDigitStr s <;> by_cases hi : truthyS ev.inode <;>
      by_cases hf : truthyS ev.file_path <;>
      simp [recordFileAttrs, hp, hd, hi, hf, Option.orElse]
  · intro node s ev hp hd hf
    by_cases hi : truthyS ev.inode <;>
      simp [recordFileAttrs, hp, hd, hf, hi, Option.orElse]

/-- Witness for C8 at concrete inputs: same-inode events share a key, a
later inode observation overwrites, an existing path survives, and an
unset path is filled by the first supplier. -/
theorem c8_node_attr_accumulation_witness :
    fileKey { eid := 0, ts := none, action := none, pid := none, ppid := none,
              exe := none, file_path := some "/a", inode := some "7", socket := none,
              edge_dir := none, rawTs := none } =
      some (NodeKey.file "7") ∧
    (recordFileAttrs { type := "file" } "7"
      (some { eid := 0, ts := none, action := none, pid := none, ppid := none,
              exe := none, file_path := some "/a", inode := some "8", socket := none,
              edge_dir := none, rawTs := none })).inode = some "8" ∧
    (recordFileAttrs { type := "file", path := some "/old" } "7"
      (some { eid := 0, ts := none, action := none, pid := none, ppid := none,
              exe := none, file_path := some "/new", inode := none, socket := none,
              edge_dir := none, rawTs := none })).path = some "/old" ∧
    (recordFileAttrs { type := "file" } "7"
      (some { eid := 0, ts := none, action := none, pid := none, ppid := none,
              exe := none, file_path := some "/new", inode := none, socket := none,
              edge_dir := none, rawTs := none })).path = some "/new" := by
  refine ⟨?_, ?_, ?_, ?_⟩
  · exact (c8_node_attr_accumulation.1 _ _ (by decide) (rfl)).1
  · exact c8_node_attr_accumulation.2.2.2.1 _ _ _ (by decide)
  · exact c8_node_attr_accumulation.2.2.2.2.1 _ _ _ _ rfl
  · exact c8_node_attr_accumulation.2.2.2.2.2 _ _ _ rfl (by decide) (by decide)

/-- C9: an invalid `start_type` makes both tracers raise the
`ValueError` (`InvalidStartKind`) before any trace graph is produced
(the `Except` is an error, so no graph is returned). -/
theorem c9_invalid_start_kind (fi : String → Option Int) (events : List RawEvent)
    (st : String) (sid : StartId) (mh : Nat) (tc : Option Int) (sts : Option String)
    (h1 : st ≠ "inode") (h2 : st ≠ "pid") (h3 : st ≠ "socket") :
    Backtracker.backtrack fi events st sid mh tc =
      Except.error "start_type must be inode/pid/socket" ∧
    ForwardTracker.forward fi events st sid sts mh tc =
      Except.error "start_type must be inode/pid/socket" := by
  constructor
  · simp [Backtracker.backtrack, coerceStartB, h1, h2, h3, Except.map]
  · simp [ForwardTracker.forward, coerceStartF, h1, h2, h3, Except.map]

/-- Witness for C9 at the concrete invalid kind `"banana"`. -/
theorem c9_invalid_start_kind_witness :
    Backtracker.backtrack (fun _ => none) [] "banana" (Sum.inl "x") 5 none =
      Except.error "start_type must be inode/pid/socket" ∧
    ForwardTracker.forward (fun _ => none) [] "banana" (Sum.inl "x") none 5 none =
      Except.error "start_type must be inode/pid/socket" :=
  c9_invalid_start_kind (fun _ => none) [] "banana" (Sum.inl "x") 5 none none
    (by decide) (by decide) (by decide)

/-- C10: `parse_iso` is total by construction (`Option`-valued, the
source's `except` is the `none` of the parser), maps `None` to `None`,
rewrites a trailing `Z` to the `+00:00` UTC offset before parsing, returns
`None` on any string the parser rejects, and events whose timestamp failed
to parse get the newest/oldest sentinel sort keys in the two tracker
views. -/
theorem c10_parse_iso_total (fi : String → Option Int) :
    parse_iso fi none = none ∧
    (∀ s : String, pyEndsWithZ s = true →
      parse_iso fi (some s) = fi (s.dropRight 1 ++ "+00:00")) ∧
    (∀ s : String, pyEndsWithZ s = false → parse_iso fi (some s) = fi s) ∧
    (∀ s : String,
      fi (if pyEndsWithZ s then s.dropRight 1 ++ "+00:00" else s) = none →
        parse_iso fi (some s) = none) ∧
    (∀ (fi2 : String → Option Int) (eid : Nat) (ev : RawEvent),
      (mkEventIdx fi2 eid ev).ts = none →
        sortKeyB (mkEventIdx fi2 eid ev) = ⊤ ∧ sortKeyF (mkEventIdx fi2 eid ev) = ⊥) := by
  refine ⟨rfl, ?_, ?_, ?_, ?_⟩
  · intro s h; simp [parse_iso, h]
  · intro s h; simp [parse_iso, h]
  · intro s h; simpa [parse_iso] using h
  · intro fi2 eid ev h
    exact ⟨by simp [sortKeyB, h], by simp [sortKeyF, h]⟩

/-- Witness for C10: a trailing-`Z` timestamp parses via the rewritten
offset form, and a string the parser rejects yields `none`. -/
theorem c10_parse_iso_total_witness :
    parse_iso (fun s => if s = "1+00:00" then some 1 else none) (some "1Z") = some 1 ∧
    parse_iso (fun s => if s = "1+00:00" then some 1 else none) (some "junk") = none := by
  constructor
  · rw [(c10_parse_iso_total (fun s => if s = "1+00:00" then some 1 else none)).2.1 "1Z"
      (by decide)]
    decide
  · exact (c10_parse_iso_total (fun s => if s = "1+00:00" then some 1 else none)).2.2.2.1
      "junk" (by decide)

end BeatTracker
